import Mathlib

/-!
# Verification of the lua-astar pathfinding library

This file gives a shallow embedding of the A* implementation of the
`lua-astar` repository (the grid variant in `src/index.ts` and, where needed,
the generic-graph variant) and proves or refutes the specification's claims
about it.

The source is TypeScript compiled to Lua (TypeScriptToLua), so runtime
semantics are Lua semantics: array reads out of range yield `nil`, a number
(including `0`) is truthy, only `nil` and `false` are falsy, and indexing a
`nil` value raises a runtime error.  The embedding models

* map cells (`Collidable`) as records carrying their own coordinate fields,
* the per-run search metadata the source stores on cell objects
  (`pathCost`, `heuristicToEnd`, `totalWeight`, `previous`, `inOpenList`,
  `inClosedList`) as an explicit store from node identities to optional
  fields (`nil` = `none`),
* the external `PriorityList` collaborator through the contract the spec
  gives for it (insert-with-key, remove-minimum, remove-by-identity,
  membership test),
* runtime errors (`error(...)` calls and indexing `nil`) as an `Except`
  error outcome, and
* the unbounded `while` loops by explicit fuel, with `none` meaning the
  fuel ran out.

Numeric values are modeled over an arbitrary `LinearOrderedCommRing` so that
concrete executions can be carried out over `ℤ`; the default topology's
`math.sqrt(2)` entries take the square root as an explicit value so that the
default list can be instantiated at `Real.sqrt 2`.
-/

set_option maxHeartbeats 1000000
set_option maxRecDepth 4000

namespace LuaAstar

/-- Integer coordinate pair, the source's `Coordinate`. -/
abbrev Coord := Int × Int

/-- A map cell, the source's `Collidable`: coordinate fields plus a
`blocked` flag and a `travelCost` multiplier. -/
structure Cell (α : Type) where
  x : Int
  y : Int
  blocked : Bool
  travelCost : α
deriving DecidableEq, Repr

/-- The caller's 2D map, the source's `CollidableMap`, indexed `map[x][y]`. -/
abbrev CMap (α : Type) := List (List (Cell α))

/-- Lua table read `map[x]`: an index outside the array yields `nil`. -/
def lookupRow (m : CMap α) (x : Int) : Option (List (Cell α)) :=
  if 0 ≤ x then m.get? x.toNat else none

/-- Lua table read `map[x][y]` when the row exists. -/
def lookupCell (m : CMap α) (x y : Int) : Option (Cell α) :=
  match lookupRow m x with
  | none => none
  | some row => if 0 ≤ y then row.get? y.toNat else none

/-- Identity of a search node object: either the fresh record that `astar`
seeds into the open list for the start position, or the map's cell object at
position `(x, y)`.  Distinct map positions hold distinct cell objects. -/
inductive NodeId
  | copy
  | cell (x y : Int)
deriving DecidableEq, Repr

/-- The optional search-metadata fields the source adds to a cell object
(`eCollidable`); an absent field is `nil`, i.e. `none`. -/
structure Meta (α : Type) where
  pathCost : Option α := none
  heuristicToEnd : Option α := none
  totalWeight : Option α := none
  previous : Option NodeId := none
  inOpenList : Option Bool := none
  inClosedList : Option Bool := none
deriving DecidableEq, Repr

/-- Runtime errors a run can raise: `nilIndex` models indexing a `nil` value
(e.g. `map[x]` missing where the source indexes it unguarded, or
`neighbors[i]` missing for a bad `blockedBy` index); `loopDetected` models
the source's `error("loop detected" ...)` call, which embeds the coordinates
of the offending node and of its back-pointer target in the message. -/
inductive AErr
  | nilIndex
  | loopDetected (tx ty px py : Int)
deriving DecidableEq, Repr

/-- Search state of one run: the metadata store (the fields living on the
node objects), the open `PriorityList`, and the closed `usedList` key set.
`reopenCount` is ghost instrumentation — it mirrors nothing in the source and
only counts deletions from the closed set (reopenings); it never influences
control flow. -/
structure SState (α : Type) where
  meta : NodeId → Meta α
  openl : List (α × NodeId)
  closed : List NodeId
  reopenCount : Nat := 0

/-- Update the metadata of one node in place. -/
def setMeta (st : SState α) (id : NodeId) (f : Meta α → Meta α) : SState α :=
  { st with meta := fun j => if j = id then f (st.meta j) else st.meta j }

/-! ## The `PriorityList` collaborator

The priority container is an external library; the spec fixes its contract:
insert-with-key, remove-minimum, remove-by-identity, membership test.  It is
modeled as a list of key–identity pairs; `take` removes a minimal-key entry
(the first such entry, a legitimate remove-minimum). -/

def plPut (l : List (α × β)) (k : α) (id : β) : List (α × β) := l ++ [(k, id)]

def plIsPresent [DecidableEq β] (l : List (α × β)) (id : β) : Bool :=
  l.any (fun e => e.2 = id)

def plRemove [DecidableEq β] (l : List (α × β)) (id : β) : List (α × β) :=
  l.filter (fun e => e.2 ≠ id)

/-- The entry a remove-minimum returns: the first entry of minimal key. -/
def minEntry [LinearOrder α] : List (α × β) → Option (α × β)
  | [] => none
  | e :: es => some (es.foldl (fun b c => if c.1 < b.1 then c else b) e)

/-- `openList.take()`: remove and return a minimal-key entry. -/
def plTake [LinearOrder α] [DecidableEq β] (l : List (α × β)) :
    Option ((α × β) × List (α × β)) :=
  match minEntry l with
  | none => none
  | some e => some (e, l.erase e)

/-! ## The neighbor topology -/

/-- A neighbor descriptor, the source's `Neighbor` interface: an offset, the
geometric travel multiplier (`pathCost`), and the optional pair of descriptor
indices whose cells flank a diagonal move (`blockedBy`). -/
structure Neighbor (α : Type) where
  x : Int
  y : Int
  pathCost : α
  blockedBy : Option (Nat × Nat) := none
deriving DecidableEq, Repr

/-- The source's default `neighbors` list.  The source computes
`math.sqrt(2)` once for the diagonal multipliers; the model takes that value
as the explicit argument `sqrt2` (instantiated at `Real.sqrt 2`). -/
def neighbors [LinearOrderedCommRing α] (sqrt2 : α) : List (Neighbor α) :=
  [ ⟨-1,  0, 1, none⟩,
    ⟨ 1,  0, 1, none⟩,
    ⟨ 0, -1, 1, none⟩,
    ⟨ 0,  1, 1, none⟩,
    ⟨-1, -1, sqrt2, some (0, 2)⟩,
    ⟨-1,  1, sqrt2, some (0, 5)⟩,
    ⟨ 1, -1, sqrt2, some (2, 1)⟩,
    ⟨ 1,  1, sqrt2, some (3, 1)⟩ ]

/-- `configurePathableNeighbors`: the source setter merely overwrites the
module-level `neighbors` list with the caller's list, with no validation of
any kind; modeled by explicit state passing, it returns the newly installed
topology. -/
def configurePathableNeighbors (n : List (Neighbor α)) : List (Neighbor α) := n

/-- The source's default `heuristic` (octile distance) with configurable
`straightDistance` and `diagonalDistance` weights. -/
def heuristic [LinearOrderedCommRing α] (straight diagonal : α)
    (node : Cell α) (goal : Coord) : α :=
  let dx : α := ((node.x - goal.1).natAbs : α)
  let dy : α := ((node.y - goal.2).natAbs : α)
  straight * (dx + dy) + (diagonal - 2 * straight) * min dx dy

/-! ## `checkTile` (grid variant)

Faithful rendering of `checkTile` from `src/index.ts`.  Lua truthiness:
`target.pathCost && pathCost < target.pathCost` passes the guard whenever the
stored `pathCost` is a number (including `0`) and fails only when it is
`nil`. -/

variable [LinearOrderedCommRing α]

def checkTile (hfun : Cell α → Coord → α) (endc : Coord) (tileTravelCost : α)
    (targetOpt : Option (Cell α × NodeId)) (parentId : NodeId) (px py : Int)
    (st : SState α) : Except AErr (SState α) :=
  match targetOpt with
  | none => .ok st
  | some (tc, tid) =>
    if tc.blocked then .ok st
    else
      let cost := tc.travelCost * tileTravelCost
      let parentCost := ((st.meta parentId).pathCost).getD 0
      let pathCost := parentCost + cost
      let inOpen0 := plIsPresent st.openl tid
      let inClosed0 := st.closed.contains tid
      let stored := (st.meta tid).pathCost
      let removeOpen := inOpen0 &&
        (match stored with | some g => decide (pathCost < g) | none => false)
      let st1 := if removeOpen then { st with openl := plRemove st.openl tid } else st
      let removeClosed := inClosed0 &&
        (match stored with | some g => decide (g > pathCost) | none => false)
      let st2 := if removeClosed then
          { st1 with closed := st1.closed.filter (fun j => j ≠ tid),
                     reopenCount := st1.reopenCount + 1 }
        else st1
      if !(inOpen0 && !removeOpen) && !(inClosed0 && !removeClosed) then
        let hCost := hfun tc endc
        let st3 := setMeta st2 tid (fun mm =>
          { pathCost := some pathCost, heuristicToEnd := some hCost,
            previous := some parentId, totalWeight := some (pathCost + hCost),
            inOpenList := some true, inClosedList := mm.inClosedList })
        let st4 := { st3 with openl := plPut st3.openl (pathCost + hCost) tid }
        if (st4.meta parentId).previous = some tid then
          .error (.loopDetected tc.x tc.y px py)
        else .ok st4
      else .ok st2

/-! ## `parseNeighbors` (grid variant) -/

/-- Resolve a node identity to the underlying object's `Collidable` fields:
the seeded start record for `.copy`, the map's cell for `.cell`.  In the
source the object is at hand directly; a failing `.cell` resolution can only
arise for identities that never occur in a run. -/
def cellOf (m : CMap α) (startRec : Cell α) : NodeId → Option (Cell α)
  | .copy => some startRec
  | .cell x y => lookupCell m x y

/-- The corner-flank test `map[tx+n.x] && map[tx+n.x][ty+n.y] && ....blocked`
for the `blockedBy` entry `bi`; reading `neighbors[bi]` for an out-of-range
index yields `nil` and the subsequent `.x` access raises. -/
def flankBlocked (m : CMap α) (topo : List (Neighbor α)) (tx ty : Int)
    (bi : Nat) : Except AErr Bool :=
  match topo.get? bi with
  | none => .error .nilIndex
  | some nb =>
    match lookupRow m (tx + nb.x) with
    | none => .ok false
    | some row =>
      match (if 0 ≤ ty + nb.y then row.get? (ty + nb.y).toNat else none) with
      | none => .ok false
      | some c => .ok c.blocked

/-- One iteration of the `for` loop over the descriptor list inside
`parseNeighbors`: the row guard, the anti-backtrack identity check against
`target.previous`, corner-cut suppression, then `checkTile`. -/
def parseNeighborsStep (hfun : Cell α → Coord → α) (topo : List (Neighbor α))
    (m : CMap α) (endc : Coord) (tcell : Cell α) (poppedId : NodeId)
    (st : SState α) (nb : Neighbor α) : Except AErr (SState α) :=
  match lookupRow m (tcell.x + nb.x) with
  | none => .ok st
  | some row =>
    let ncellOpt := if 0 ≤ tcell.y + nb.y then row.get? (tcell.y + nb.y).toNat else none
    let nIdOpt : Option NodeId :=
      ncellOpt.map (fun _ => .cell (tcell.x + nb.x) (tcell.y + nb.y))
    if nIdOpt = (st.meta poppedId).previous then .ok st
    else
      let targetOpt : Option (Cell α × NodeId) :=
        match ncellOpt with
        | some c => some (c, .cell (tcell.x + nb.x) (tcell.y + nb.y))
        | none => none
      match nb.blockedBy with
      | some (b1, b2) => do
        let n2 ← flankBlocked m topo tcell.x tcell.y b1
        let n3 ← flankBlocked m topo tcell.x tcell.y b2
        if n2 && n3 then pure st
        else checkTile hfun endc nb.pathCost targetOpt poppedId tcell.x tcell.y st
      | none => checkTile hfun endc nb.pathCost targetOpt poppedId tcell.x tcell.y st

/-- Setting the `inClosedList`/`inOpenList` flags of the popped node. -/
def closeFlags (st : SState α) (pid : NodeId) : SState α :=
  setMeta st pid (fun mm =>
    { mm with inClosedList := some true, inOpenList := some false })

/-- Closing a popped node: set its `inClosedList`/`inOpenList` flags, then
add the key object (`map[target.x][target.y]`) to the closed set unless
already present. -/
def closeNode (st : SState α) (pid kid : NodeId) : SState α :=
  if (closeFlags st pid).closed.contains kid then closeFlags st pid
  else { closeFlags st pid with
    closed := (closeFlags st pid).closed ++ [kid] }

/-- `parseNeighbors`: goal test on the popped node, then close it (flags and
`usedList` key `map[target.x][target.y]`), then expand every descriptor. -/
def parseNeighbors (hfun : Cell α → Coord → α) (topo : List (Neighbor α))
    (m : CMap α) (endc : Coord) (startRec : Cell α) (poppedId : NodeId)
    (st : SState α) : Except AErr (Option NodeId × SState α) :=
  match cellOf m startRec poppedId with
  | none => .error .nilIndex
  | some tcell =>
    if tcell.x = endc.1 ∧ tcell.y = endc.2 then .ok (some poppedId, st)
    else
      match lookupCell m tcell.x tcell.y with
      | none => .error .nilIndex
      | some _ =>
        (List.foldlM (parseNeighborsStep hfun topo m endc tcell poppedId)
          (closeNode st poppedId (NodeId.cell tcell.x tcell.y)) topo).map
          (fun st' => (none, st'))

/-! ## The main pop-and-expand loop (grid variant) -/

/-- Outcome of one iteration of the `while` loop in `astar`. -/
inductive StepOut (α : Type)
  | exhausted (st : SState α)
  | found (id : NodeId) (st : SState α)
  | next (st : SState α)

/-- One iteration of `while (openList.list.length > 0)`: take the minimum
entry and run `parseNeighbors` on it. -/
def loopIter (hfun : Cell α → Coord → α) (topo : List (Neighbor α)) (m : CMap α)
    (endc : Coord) (startRec : Cell α) (st : SState α) : Except AErr (StepOut α) :=
  match plTake st.openl with
  | none => .ok (.exhausted st)
  | some ((_, pid), rest) =>
    match parseNeighbors hfun topo m endc startRec pid { st with openl := rest } with
    | .error e => .error e
    | .ok (some gid, st') => .ok (.found gid st')
    | .ok (none, st') => .ok (.next st')

/-- Final outcome of the loop. -/
inductive LoopRes (α : Type)
  | exhausted (st : SState α)
  | found (id : NodeId) (st : SState α)

/-- The `while` loop with explicit fuel; `none` = fuel exhausted. -/
def runLoop (hfun : Cell α → Coord → α) (topo : List (Neighbor α)) (m : CMap α)
    (endc : Coord) (startRec : Cell α) :
    Nat → SState α → Option (Except AErr (LoopRes α))
  | 0, _ => none
  | (n + 1), st =>
    match loopIter hfun topo m endc startRec st with
    | .error e => some (.error e)
    | .ok (.exhausted s) => some (.ok (.exhausted s))
    | .ok (.found g s) => some (.ok (.found g s))
    | .ok (.next s) => runLoop hfun topo m endc startRec n s

/-! ## Path extraction (grid variant) -/

/-- The back-pointer walk: `while (!stopped) { path.push({x, y}); finpath =
finpath.previous }`, collecting the visited objects' coordinate fields
goal-first; fuel-limited since the source loop is unbounded. -/
def backwalkGo (m : CMap α) (startRec : Cell α) (st : SState α) :
    Nat → Option NodeId → Option (Except AErr (List Coord))
  | _, none => some (.ok [])
  | 0, some _ => none
  | (n + 1), some id =>
    match cellOf m startRec id with
    | none => some (.error .nilIndex)
    | some c =>
      match backwalkGo m startRec st n ((st.meta id).previous) with
      | none => none
      | some (.error e) => some (.error e)
      | some (.ok l) => some (.ok ((c.x, c.y) :: l))

/-- A path link segment, the source's `Line`. -/
structure Line where
  x : Int
  y : Int
  nextX : Int
  nextY : Int
deriving DecidableEq, Repr

/-- The final `revpath` construction: each `path[i]` is paired with
`path[i-1]` (or itself for `i = 0`); the list keeps the goal-first order of
`path`. -/
def toLines : List Coord → List Line
  | [] => []
  | c :: rest =>
    (c :: rest).zipWith (fun p q => ⟨p.1, p.2, q.1, q.2⟩) (c :: c :: rest)

/-! ## `astar` (grid variant) -/

/-- The initialization of `astar`: look up the start and end cells (indexing
a missing one raises), compute the seed heuristic from the end cell's
coordinate fields, and seed the open list with the fresh start record. -/
def astarInit (hfun : Cell α → Coord → α) (m : CMap α) (s e : Coord) :
    Except AErr (Cell α × SState α) :=
  match lookupCell m s.1 s.2 with
  | none => .error .nilIndex
  | some startNode =>
    match lookupCell m e.1 e.2 with
    | none => .error .nilIndex
    | some endNode =>
      let h := hfun startNode (endNode.x, endNode.y)
      let tcost := startNode.travelCost
      let startRec : Cell α := ⟨s.1, s.2, startNode.blocked, tcost⟩
      let st : SState α :=
        { meta := fun j => if j = .copy then
            { pathCost := some tcost, heuristicToEnd := some h,
              totalWeight := some (h + tcost), previous := none,
              inOpenList := none, inClosedList := none }
          else {},
          openl := [(h + tcost, .copy)], closed := [], reopenCount := 0 }
      .ok (startRec, st)

/-- `astar`, also exposing the final state: the loop, the back-pointer walk,
the `revpath` construction, and the final `openList.free()` (which clears
the open container but touches no cell metadata). -/
def astarWithState (hfun : Cell α → Coord → α) (topo : List (Neighbor α))
    (m : CMap α) (s e : Coord) (fuel : Nat) :
    Option (Except AErr (List Line × SState α)) :=
  match astarInit hfun m s e with
  | .error er => some (.error er)
  | .ok (startRec, st0) =>
    match runLoop hfun topo m e startRec fuel st0 with
    | none => none
    | some (.error er) => some (.error er)
    | some (.ok (.exhausted stF)) => some (.ok ([], { stF with openl := [] }))
    | some (.ok (.found gid stF)) =>
      match backwalkGo m startRec stF fuel (some gid) with
      | none => none
      | some (.error er) => some (.error er)
      | some (.ok coords) =>
        some (.ok (toLines coords, { stF with openl := [] }))

/-- The exported `astar` result: the path (or a runtime error), with fuel. -/
def astar (hfun : Cell α → Coord → α) (topo : List (Neighbor α)) (m : CMap α)
    (s e : Coord) (fuel : Nat) : Option (Except AErr (List Line)) :=
  (astarWithState hfun topo m s e fuel).map (Except.map Prod.fst)

/-! ## The generic-graph variant

Shallow embedding of the second source file's `astar`: node identity is
caller-owned (modeled by natural-number identities, with one fresh identity
reserved for the record `astar` seeds), metadata lives in the caller's flat
`FFIStruct` buffer addressed by `ffiIndex`, and heuristic, neighbor
enumeration and edge cost are caller-supplied callbacks.  `FFIStruct` fields
are plain numbers and booleans (an FFI buffer has no `nil`), so the
`pathCost &&` guard of this variant always passes. -/

/-- One `FFIStruct` slot of the external state buffer. -/
structure GFfi (α : Type) where
  blocked : Bool
  travelCost : α
  pathCost : α
  heuristicToEnd : α
  totalWeight : α
  inOpenList : Bool
  inClosedList : Bool
deriving DecidableEq, Repr

/-- State of a generic-variant run: the FFI buffer, each node's `previous`
field, the open list and the closed set. -/
structure GState (α : Type) where
  ffi : Nat → GFfi α
  prev : Nat → Option Nat
  openl : List (α × Nat)
  closed : List Nat

/-- The caller-supplied `LuaMap` callbacks: heuristic, neighbor enumeration,
exact two-node distance, and the `ffiIndex` field of each node. -/
structure GCallbacks (α : Type) where
  heuristic : Nat → Nat → α
  getNeighbors : Nat → List Nat
  twoNodeDist : Nat → Nat → α
  ffiIndex : Nat → Nat

/-- Generic-variant `checkTile`.  The loop-detection `error` in this variant
has the fixed message `"loop detected"` with no coordinates, modeled as a
bare error. -/
def gCheckTile (cb : GCallbacks α) (tOpt : Option Nat) (parentId : Nat)
    (endId : Nat) (st : GState α) : Except Unit (GState α) :=
  match tOpt with
  | none => .ok st
  | some tid =>
    if st.prev tid = some parentId then .ok st
    else
      let fi := cb.ffiIndex tid
      if (st.ffi fi).blocked then .ok st
      else
        let tcost := cb.twoNodeDist tid parentId
        let cost := (st.ffi fi).travelCost * tcost
        let parentCost := (st.ffi (cb.ffiIndex parentId)).pathCost
        let pathCost := parentCost + cost
        let inOpen0 := plIsPresent st.openl tid
        let inClosed0 := st.closed.contains tid
        let removeOpen := inOpen0 && decide (pathCost < (st.ffi fi).pathCost)
        let st1 := if removeOpen then { st with openl := plRemove st.openl tid } else st
        let removeClosed := inClosed0 && decide ((st.ffi fi).pathCost > pathCost)
        let st2 := if removeClosed then
            { st1 with closed := st1.closed.filter (fun j => j ≠ tid) }
          else st1
        if !(inOpen0 && !removeOpen) && !(inClosed0 && !removeClosed) then
          let hCost := cb.heuristic tid endId
          let slot :=
            { st2.ffi fi with
              pathCost := pathCost
              heuristicToEnd := hCost
              totalWeight := pathCost + hCost
              inOpenList := true }
          let st3 : GState α :=
            { st2 with
              ffi := fun j => if j = fi then slot else st2.ffi j,
              prev := fun j => if j = tid then some parentId else st2.prev j }
          let st4 := { st3 with openl := plPut st3.openl (pathCost + hCost) tid }
          if st4.prev parentId = some tid then .error ()
          else .ok st4
        else .ok st2

/-- Generic-variant `parseNeighbors`: identity goal test (`thisNode == end`),
close the popped node, expand the caller-enumerated neighbors. -/
def gParseNeighbors (cb : GCallbacks α) (endId : Nat) (poppedId : Nat)
    (st : GState α) : Except Unit (Option Nat × GState α) :=
  if poppedId = endId then .ok (some poppedId, st)
  else
    let fi := cb.ffiIndex poppedId
    let slot := { st.ffi fi with inClosedList := true, inOpenList := false }
    let st := { st with ffi := fun j => if j = fi then slot else st.ffi j }
    let st := if st.closed.contains poppedId then st
              else { st with closed := st.closed ++ [poppedId] }
    (List.foldlM (fun s n => gCheckTile cb (some n) poppedId endId s) st
        (cb.getNeighbors poppedId)).map (fun st' => (none, st'))

/-- Generic-variant loop with fuel. -/
def gRunLoop (cb : GCallbacks α) (endId : Nat) :
    Nat → GState α → Option (Except Unit (Option Nat × GState α))
  | 0, _ => none
  | (n + 1), st =>
    match plTake st.openl with
    | none => some (.ok (none, st))
    | some ((_, pid), rest) =>
      match gParseNeighbors cb endId pid { st with openl := rest } with
      | .error e => some (.error e)
      | .ok (some gid, st') => some (.ok (some gid, st'))
      | .ok (none, st') => gRunLoop cb endId n st'

/-- Generic-variant back-pointer walk: starting from the found node, first
step to `previous` and only then push, so the found node itself is not part
of `steps`. -/
def gBackwalk (st : GState α) : Nat → Nat → Option (List Nat)
  | 0, _ => none
  | (n + 1), id =>
    match st.prev id with
    | none => some []
    | some p => (gBackwalk st n p).map (fun l => p :: l)

/-- Generic-variant `astar`: seeds a fresh node (identity `copyId`, carrying
only the start's `ffiIndex`), runs the loop, then builds `steps` and copies
it into `revpath`; when `steps` is empty the function returns `undefined`
(`none`). -/
def gAstar (cb : GCallbacks α) (ffi0 : Nat → GFfi α) (prev0 : Nat → Option Nat)
    (copyId startId endId : Nat) (fuel : Nat) :
    Option (Except Unit (Option (List Nat))) :=
  let h := cb.heuristic startId endId
  let fi := cb.ffiIndex startId
  let cb' : GCallbacks α :=
    { cb with ffiIndex := fun j => if j = copyId then fi else cb.ffiIndex j }
  let st0 : GState α :=
    { ffi := ffi0, prev := prev0,
      openl := [(h + (ffi0 fi).travelCost, copyId)], closed := [] }
  match gRunLoop cb' endId fuel st0 with
  | none => none
  | some (.error e) => some (.error e)
  | some (.ok (none, _)) => some (.ok none)
  | some (.ok (some gid, stF)) =>
    match gBackwalk stF fuel gid with
    | none => none
    | some steps => some (.ok (if steps.length > 0 then some steps else none))

/-! ## Derived notions used by the theorems -/

/-- The candidate cost `g' = (parent.pathCost || 0) + target.travelCost *
tileTravelCost` that `checkTile` computes. -/
def candidateCost (st : SState α) (parentId : NodeId) (tc : Cell α)
    (tileTravelCost : α) : α :=
  ((st.meta parentId).pathCost).getD 0 + tc.travelCost * tileTravelCost

/-- The exact condition under which `checkTile` discards a candidate for a
non-blocked target: the target is in the open or closed container, and its
stored `pathCost` is either `nil` (Lua falsy) or not strictly greater than
the candidate. -/
def discards (st : SState α) (tid : NodeId) (g' : α) : Bool :=
  (plIsPresent st.openl tid || st.closed.contains tid) &&
  (match (st.meta tid).pathCost with
   | some g => decide (g ≤ g')
   | none => true)

/-- The discard condition as the spec claims it: membership together with a
present stored `g ≤ g'`. -/
def storedLeCond (st : SState α) (tid : NodeId) (g' : α) : Prop :=
  (plIsPresent st.openl tid = true ∨ st.closed.contains tid = true) ∧
  ∃ g, (st.meta tid).pathCost = some g ∧ g ≤ g'

/-- The state `checkTile` produces when it accepts a candidate: the target
is dropped from whichever container held it (counting a closed-set drop as a
reopening), its metadata is finalized with `f = g' + h` and the back-pointer
set to the parent, and it is inserted into the open list keyed by `g' + h`. -/
def insertState (st : SState α) (tid parentId : NodeId) (g' hC : α) : SState α :=
  { meta := fun j => if j = tid then
      { pathCost := some g'
        heuristicToEnd := some hC
        previous := some parentId
        totalWeight := some (g' + hC)
        inOpenList := some true
        inClosedList := (st.meta j).inClosedList }
    else st.meta j
    openl := plPut (plRemove st.openl tid) (g' + hC) tid
    closed := st.closed.filter (fun j => j ≠ tid)
    reopenCount := st.reopenCount + (if st.closed.contains tid then 1 else 0) }

/-- Stored `f`, `g`, `h` are all present and satisfy `f = g + h`. -/
def fghConsistent (mm : Meta α) : Prop :=
  ∃ g h f, mm.pathCost = some g ∧ mm.heuristicToEnd = some h ∧
    mm.totalWeight = some f ∧ f = g + h

/-- A well-formed map: every cell's coordinate fields agree with its
position in the 2D array. -/
def Coherent (m : CMap α) : Prop :=
  ∀ x y c, lookupCell m x y = some c → c.x = x ∧ c.y = y

/-- The position a node identity denotes: the start coordinate for the
seeded record, the array position for a map cell. -/
def posOf (s : Coord) : NodeId → Coord
  | .copy => s
  | .cell x y => (x, y)

/-- Iterate `n` non-final loop iterations from a state; `some st` means the
run is still going and has reached `st`. -/
def stepN (hfun : Cell α → Coord → α) (topo : List (Neighbor α)) (m : CMap α)
    (endc : Coord) (startRec : Cell α) : Nat → SState α → Option (SState α)
  | 0, st => some st
  | (n + 1), st =>
    match loopIter hfun topo m endc startRec st with
    | .ok (.next s) => stepN hfun topo m endc startRec n s
    | _ => none

/-! ## Concrete instances

Small concrete maps, topologies and heuristics over `ℤ`, used to witness the
theorems and to exhibit counterexamples by direct evaluation of the model. -/

/-- A state with no metadata, no open entries and no closed entries. -/
def emptySState : SState α :=
  { meta := fun _ => {}, openl := [], closed := [], reopenCount := 0 }

/-- Plain 4-neighborhood topology over `ℤ`. -/
def topo4 : List (Neighbor ℤ) :=
  [ ⟨-1, 0, 1, none⟩, ⟨1, 0, 1, none⟩, ⟨0, -1, 1, none⟩, ⟨0, 1, 1, none⟩ ]

/-- The constant-zero heuristic (an admissible replacement heuristic). -/
def h0q : Cell ℤ → Coord → ℤ := fun _ _ => 0

/-- A 3-cell corridor: rows `x = 0, 1, 2`, one cell each, all open. -/
def map31 : CMap ℤ :=
  [[⟨0, 0, false, 1⟩], [⟨1, 0, false, 1⟩], [⟨2, 0, false, 1⟩]]

/-- The corridor with its middle cell blocked: no path from `(0,0)` to
`(2,0)`. -/
def map31b : CMap ℤ :=
  [[⟨0, 0, false, 1⟩], [⟨1, 0, true, 1⟩], [⟨2, 0, false, 1⟩]]

/-- An open 2×2 map. -/
def map22 : CMap ℤ :=
  [[⟨0, 0, false, 1⟩, ⟨0, 1, false, 1⟩], [⟨1, 0, false, 1⟩, ⟨1, 1, false, 1⟩]]

/-- A malformed topology: the second descriptor's `blockedBy` names index
`99`, far outside the list. -/
def badTopo : List (Neighbor ℤ) :=
  [ ⟨-1, 0, 1, none⟩, ⟨1, 1, 1, some (0, 99)⟩ ]

/-- An 11-cell corridor used by the reopening-count instance: a zero-cost
start cell at `x = 0`, nine unit-cost cells, and a blocked cell at `x = 10`
serving as an unreachable end. -/
def mapMar : CMap ℤ :=
  [[⟨0, 0, false, 0⟩], [⟨1, 0, false, 1⟩], [⟨2, 0, false, 1⟩], [⟨3, 0, false, 1⟩],
   [⟨4, 0, false, 1⟩], [⟨5, 0, false, 1⟩], [⟨6, 0, false, 1⟩], [⟨7, 0, false, 1⟩],
   [⟨8, 0, false, 1⟩], [⟨9, 0, false, 1⟩], [⟨10, 0, true, 1⟩]]

/-- A 10-descriptor topology with expensive long forward jumps and
strongly superadditive cheap backward jumps: forward entries are discovered
first and then undercut repeatedly through backward chains. -/
def topoMar : List (Neighbor ℤ) :=
  [⟨5, 0, 11937, none⟩, ⟨6, 0, 5230, none⟩, ⟨7, 0, 3741, none⟩, ⟨8, 0, 1211, none⟩,
   ⟨9, 0, 55, none⟩, ⟨-1, 0, 25, none⟩, ⟨-2, 0, 55, none⟩, ⟨-3, 0, 113, none⟩,
   ⟨-4, 0, 271, none⟩, ⟨-5, 0, 526, none⟩]

/-- A replacement heuristic (a per-cell table, as the caller may install any
function) whose staircase of errors delays the cheap stepping-stone routes,
so closed cells keep being rediscovered with strictly better costs. -/
def hMar : Cell ℤ → Coord → ℤ := fun c _ =>
  if c.x = 1 then -2914 else if c.x = 2 then -1197 else if c.x = 3 then -600
  else if c.x = 4 then -73 else if c.x = 5 then 1463 else if c.x = 6 then 8376
  else if c.x = 7 then 22145 else if c.x = 8 then 64086
  else if c.x = 9 then 189898 else 0

/-- The state `astarInit` seeds for the corridor run `(0,0) → (2,0)`. -/
def st31 : SState ℤ :=
  match astarInit h0q map31 (0, 0) (2, 0) with
  | .ok (_, st) => st
  | .error _ => emptySState

/-- The state after the first loop iteration of the corridor run: the seeded
start record has been popped and expanded, and the closed set holds the real
start cell — bare, with no metadata on it. -/
def st31one : SState ℤ :=
  match stepN h0q topo4 map31 (2, 0) ⟨0, 0, false, 1⟩ 1 st31 with
  | some st => st
  | none => emptySState

/-- The seeded state of the walled corridor run `(0,0) → (2,0)`. -/
def st31b : SState ℤ :=
  match astarInit h0q map31b (0, 0) (2, 0) with
  | .ok (_, st) => st
  | .error _ => emptySState

/-- The final state of the walled corridor run: the frontier is exhausted
without the goal having been popped. -/
def st31bF : SState ℤ :=
  match runLoop h0q topo4 map31b (2, 0) ⟨0, 0, false, 1⟩ 2 st31b with
  | some (.ok (.exhausted st)) => st
  | _ => emptySState

/-- A state in which the popped parent's back-pointer already aims at the
tile about to be reconciled (corrupted-state scenario for the 2-hop cycle
check). -/
def stC7 : SState ℤ :=
  { meta := fun j => if j = NodeId.cell 2 0 then
      { previous := some (NodeId.cell 1 0) } else {}
    openl := [], closed := [], reopenCount := 0 }

/-- FFI buffer for the 2-node generic-variant instance: two open slots of
unit travel cost and zeroed metadata. -/
def gffi0 : Nat → GFfi ℤ := fun _ => ⟨false, 1, 0, 0, 0, false, false⟩

/-- Callbacks for the 2-node generic-variant instance: node 1 (the start,
FFI slot 0) and node 2 (the goal, FFI slot 1) are mutual neighbors; identity
0 is left for the record the search seeds. -/
def gcb : GCallbacks ℤ :=
  { heuristic := fun _ _ => 0
    getNeighbors := fun id => if id = 2 then [1] else [2]
    twoNodeDist := fun _ _ => 1
    ffiIndex := fun id => if id = 2 then 1 else 0 }

/-! ## Container lemmas -/

lemma plRemove_of_not_present [DecidableEq β] (l : List (α × β)) (id : β)
    (h : plIsPresent l id = false) : plRemove l id = l := by
  induction l with
  | nil => rfl
  | cons e es ih =>
    simp only [plIsPresent, List.any_cons, Bool.or_eq_false_iff,
      decide_eq_false_iff_not] at h
    simp only [plRemove, List.filter_cons, decide_eq_true_eq]
    rw [if_pos h.1]
    have := ih (by simpa [plIsPresent] using h.2)
    simpa [plRemove] using this

lemma filter_ne_of_not_contains [DecidableEq β] (l : List β) (id : β)
    (h : l.contains id = false) : l.filter (fun j => j ≠ id) = l := by
  induction l with
  | nil => rfl
  | cons e es ih =>
    simp only [List.contains_cons, Bool.or_eq_false_iff, beq_eq_false_iff_ne] at h
    simp only [List.filter_cons, decide_eq_true_eq]
    rw [if_pos (fun he => h.1 he.symm)]
    have := ih (by simpa using h.2)
    rw [this]

lemma filter_bne_of_not_contains [DecidableEq β] (l : List β) (id : β)
    (h : l.contains id = false) : l.filter (fun j => !decide (j = id)) = l := by
  have h2 : (fun j => !decide (j = id)) = (fun j : β => decide (j ≠ id)) := by
    funext j; simp
  rw [h2]
  exact filter_ne_of_not_contains l id h

lemma minEntry_mem {κ : Type} [LinearOrder κ] (l : List (κ × β)) (e : κ × β)
    (h : minEntry l = some e) : e ∈ l := by
  match l with
  | [] => simp [minEntry] at h
  | x :: xs =>
    simp only [minEntry, Option.some.injEq] at h
    subst h
    suffices h2 : ∀ (a : κ × β) (ys : List (κ × β)),
        ys.foldl (fun b c => if c.1 < b.1 then c else b) a ∈ a :: ys by
      exact h2 x xs
    intro a ys
    induction ys generalizing a with
    | nil => simp
    | cons y ys ih =>
      simp only [List.foldl_cons]
      rcases List.mem_cons.mp (ih (if y.1 < a.1 then y else a)) with h3 | h3
      · rw [h3]; split <;> simp
      · simp [h3]

lemma plTake_eq {κ : Type} [LinearOrder κ] [DecidableEq β] (l : List (κ × β))
    (e : κ × β) (rest : List (κ × β)) (h : plTake l = some (e, rest)) :
    e ∈ l ∧ rest = l.erase e := by
  unfold plTake at h
  match h2 : minEntry l with
  | none => rw [h2] at h; simp at h
  | some e2 =>
    rw [h2] at h
    simp only [Option.some.injEq, Prod.mk.injEq] at h
    obtain ⟨rfl, rfl⟩ := h
    exact ⟨minEntry_mem l _ h2, rfl⟩

lemma foldlM_preserve {β γ ε : Type} {P : β → Prop} (f : β → γ → Except ε β)
    (l : List γ)
    (hf : ∀ s a, a ∈ l → P s → ∀ s', f s a = .ok s' → P s') :
    ∀ s s', P s → List.foldlM f s l = .ok s' → P s' := by
  induction l with
  | nil => intro s s' hP h; simp only [List.foldlM_nil] at h; cases h; exact hP
  | cons a l ih =>
    intro s s' hP h
    simp only [List.foldlM_cons] at h
    match h2 : f s a with
    | .error e => rw [h2] at h; simp [Bind.bind, Except.bind] at h
    | .ok s1 =>
      rw [h2] at h
      have hP1 : P s1 := hf s a (List.mem_cons_self a l) hP s1 h2
      exact ih (fun s a ha => hf s a (List.mem_cons_of_mem _ ha)) s1 s' hP1
        (by simpa [Bind.bind, Except.bind] using h)

/-! ## The `checkTile` characterization -/

/-- `checkTile` on a non-blocked present target either discards the
candidate leaving the state untouched, or produces `insertState` — removing
the target from its container, finalizing `g/h/f` and the back-pointer and
re-inserting it keyed by `f = g' + h` — aborting instead when the freshly
written back-pointer closes a 2-hop cycle. -/
lemma checkTile_eq (hfun : Cell α → Coord → α) (endc : Coord) (tmult : α)
    (tc : Cell α) (tid parentId : NodeId) (px py : Int) (st : SState α)
    (hb : tc.blocked = false) :
    checkTile hfun endc tmult (some (tc, tid)) parentId px py st =
      (if discards st tid (candidateCost st parentId tc tmult) then .ok st
       else if ((insertState st tid parentId
             (candidateCost st parentId tc tmult) (hfun tc endc)).meta
               parentId).previous = some tid then
         .error (.loopDetected tc.x tc.y px py)
       else .ok (insertState st tid parentId
         (candidateCost st parentId tc tmult) (hfun tc endc))) := by
  have hro : plIsPresent st.openl tid = false → plRemove st.openl tid = st.openl :=
    plRemove_of_not_present st.openl tid
  have hrc : st.closed.contains tid = false →
      st.closed.filter (fun j => j ≠ tid) = st.closed :=
    filter_ne_of_not_contains st.closed tid
  match hO : plIsPresent st.openl tid, hC : st.closed.contains tid,
      hst : (st.meta tid).pathCost with
  | false, false, none =>
    have hCm : tid ∉ st.closed := by simpa using hC
    simp [checkTile, discards, insertState, candidateCost, setMeta, plPut, hb,
      hO, hC, hst, hCm, hro hO, hrc hC, filter_bne_of_not_contains st.closed tid hC]
  | false, false, some g =>
    have hCm : tid ∉ st.closed := by simpa using hC
    by_cases hlt : (st.meta parentId).pathCost.getD 0 + tc.travelCost * tmult < g <;>
      simp [checkTile, discards, insertState, candidateCost, setMeta, plPut, hb,
        hO, hC, hst, hCm, hlt, hro hO, hrc hC, filter_bne_of_not_contains st.closed tid hC, le_of_not_lt, not_le.mpr]
  | false, true, none =>
    have hCm : tid ∈ st.closed := by simpa using hC
    simp [checkTile, discards, insertState, candidateCost, setMeta, plPut, hb,
      hO, hC, hst, hCm, hro hO]
  | false, true, some g =>
    have hCm : tid ∈ st.closed := by simpa using hC
    by_cases hlt : (st.meta parentId).pathCost.getD 0 + tc.travelCost * tmult < g <;>
      simp [checkTile, discards, insertState, candidateCost, setMeta, plPut, hb,
        hO, hC, hst, hCm, hlt, hro hO, le_of_not_lt, not_le.mpr]
  | true, false, none =>
    have hCm : tid ∉ st.closed := by simpa using hC
    simp [checkTile, discards, insertState, candidateCost, setMeta, plPut, hb,
      hO, hC, hst, hCm, hrc hC, filter_bne_of_not_contains st.closed tid hC]
  | true, false, some g =>
    have hCm : tid ∉ st.closed := by simpa using hC
    by_cases hlt : (st.meta parentId).pathCost.getD 0 + tc.travelCost * tmult < g <;>
      simp [checkTile, discards, insertState, candidateCost, setMeta, plPut, hb,
        hO, hC, hst, hCm, hlt, hrc hC, filter_bne_of_not_contains st.closed tid hC, le_of_not_lt, not_le.mpr]
  | true, true, none =>
    have hCm : tid ∈ st.closed := by simpa using hC
    simp [checkTile, discards, insertState, candidateCost, setMeta, plPut, hb,
      hO, hC, hst, hCm]
  | true, true, some g =>
    have hCm : tid ∈ st.closed := by simpa using hC
    by_cases hlt : (st.meta parentId).pathCost.getD 0 + tc.travelCost * tmult < g <;>
      simp [checkTile, discards, insertState, candidateCost, setMeta, plPut, hb,
        hO, hC, hst, hCm, hlt, le_of_not_lt, not_le.mpr]

/-! ## Error classification lemmas -/

/-- `checkTile` never raises the nil-indexing error: it either leaves a
state or aborts with the loop-detection error. -/
lemma checkTile_no_nilIndex (hfun : Cell α → Coord → α) (endc : Coord)
    (tmult : α) (targetOpt : Option (Cell α × NodeId)) (parentId : NodeId)
    (px py : Int) (st : SState α) :
    checkTile hfun endc tmult targetOpt parentId px py st ≠ .error .nilIndex := by
  match targetOpt with
  | none => simp [checkTile]
  | some (tc, tid) =>
    match htc : tc.blocked with
    | true => simp [checkTile, htc]
    | false =>
      rw [checkTile_eq hfun endc tmult tc tid parentId px py st htc]
      split
      · simp
      · by_cases hp : ((insertState st tid parentId
            (candidateCost st parentId tc tmult) (hfun tc endc)).meta
              parentId).previous = some tid
        · simp [hp]
        · simp [hp]

/-- A bounded validity check on a topology: every `blockedBy` entry names
indices inside the list. -/
def validTopoB (topo : List (Neighbor α)) : Bool :=
  topo.all fun nb =>
    match nb.blockedBy with
    | some (a, b) => decide (a < topo.length) && decide (b < topo.length)
    | none => true

lemma flankBlocked_ok_of_valid (m : CMap α) (topo : List (Neighbor α))
    (tx ty : Int) (bi : Nat) (hbi : bi < topo.length) :
    flankBlocked m topo tx ty bi ≠ .error .nilIndex := by
  unfold flankBlocked
  match h2 : topo.get? bi with
  | none => exact absurd (List.get?_eq_none.mp h2) (not_le.mpr hbi)
  | some nb =>
    simp only [h2]
    split
    · simp
    · split <;> simp

lemma foldlM_no_nilIndex (f : SState α → Neighbor α → Except AErr (SState α))
    (l : List (Neighbor α))
    (hf : ∀ s a, a ∈ l → f s a ≠ .error .nilIndex) :
    ∀ s, List.foldlM f s l ≠ .error .nilIndex := by
  induction l with
  | nil => intro s; simp [List.foldlM_nil, pure, Except.pure]
  | cons a l ih =>
    intro s
    simp only [List.foldlM_cons]
    match h2 : f s a with
    | .error e =>
      intro hcon
      simp only [h2, Bind.bind, Except.bind] at hcon
      cases hcon
      exact hf s a (List.mem_cons_self a l) h2
    | .ok s1 =>
      simp only [h2, Bind.bind, Except.bind]
      exact ih (fun s a ha => hf s a (List.mem_cons_of_mem _ ha)) s1

/-- Inner part of one expansion step: corner suppression then `checkTile`,
for an arbitrary resolved target. -/
lemma parseStep_inner_no_nilIndex (hfun : Cell α → Coord → α)
    (topo : List (Neighbor α)) (m : CMap α) (endc : Coord) (tcell : Cell α)
    (pid : NodeId) (st : SState α) (nb : Neighbor α)
    (hnb : (match nb.blockedBy with
      | some (a, b) => decide (a < topo.length) && decide (b < topo.length)
      | none => true) = true)
    (tOpt : Option (Cell α × NodeId)) :
    (match nb.blockedBy with
     | some (b1, b2) => do
        let n2 ← flankBlocked m topo tcell.x tcell.y b1
        let n3 ← flankBlocked m topo tcell.x tcell.y b2
        if n2 && n3 then pure st
        else checkTile hfun endc nb.pathCost tOpt pid tcell.x tcell.y st
     | none => checkTile hfun endc nb.pathCost tOpt pid tcell.x tcell.y st) ≠
      (.error .nilIndex : Except AErr (SState α)) := by
  match h3 : nb.blockedBy with
  | none =>
    simp only [h3]
    exact checkTile_no_nilIndex hfun endc nb.pathCost _ pid tcell.x tcell.y st
  | some (b1, b2) =>
    rw [h3] at hnb
    simp only [decide_eq_true_eq, Bool.and_eq_true] at hnb
    simp only [h3, Bind.bind, Except.bind]
    match h4 : flankBlocked m topo tcell.x tcell.y b1 with
    | .error e =>
      have h6 := flankBlocked_ok_of_valid m topo tcell.x tcell.y b1 hnb.1
      simp only [h4]
      intro hcon
      cases hcon
      exact h6 h4
    | .ok v1 =>
      simp only [h4]
      match h5 : flankBlocked m topo tcell.x tcell.y b2 with
      | .error e =>
        have h6 := flankBlocked_ok_of_valid m topo tcell.x tcell.y b2 hnb.2
        simp only [h5]
        intro hcon
        cases hcon
        exact h6 h5
      | .ok v2 =>
        simp only [h5]
        split
        · simp [pure, Except.pure]
        · exact checkTile_no_nilIndex hfun endc nb.pathCost _ pid tcell.x tcell.y st

/-- `parseNeighborsStep` never raises the nil-indexing error when the active
topology's corner-block indices are in range. -/
lemma parseNeighborsStep_no_nilIndex (hfun : Cell α → Coord → α)
    (topo : List (Neighbor α)) (m : CMap α) (endc : Coord) (tcell : Cell α)
    (pid : NodeId) (st : SState α) (nb : Neighbor α)
    (hvt : validTopoB topo = true) (hmem : nb ∈ topo) :
    parseNeighborsStep hfun topo m endc tcell pid st nb ≠ .error .nilIndex := by
  have hnb := (List.all_eq_true.mp hvt) nb hmem
  unfold parseNeighborsStep
  match h2 : lookupRow m (tcell.x + nb.x) with
  | none => simp [h2]
  | some row =>
    simp only [h2]
    split
    · split
      · simp
      · exact parseStep_inner_no_nilIndex hfun topo m endc tcell pid st nb hnb _
    · split
      · simp
      · exact parseStep_inner_no_nilIndex hfun topo m endc tcell pid st nb hnb _

lemma except_map_ne_nilIndex {γ δ : Type} (f : γ → δ) (X : Except AErr γ)
    (h : X ≠ .error .nilIndex) : X.map f ≠ .error .nilIndex := by
  cases X with
  | error e =>
    intro hcon
    simp only [Except.map] at hcon
    cases hcon
    exact h rfl
  | ok v => simp [Except.map]

/-- `parseNeighbors` on a popped node whose object resolves and whose
coordinate fields index an existing cell never raises the nil-indexing
error, for any topology with in-range corner-block indices. -/
lemma parseNeighbors_no_nilIndex_core (hfun : Cell α → Coord → α)
    (topo : List (Neighbor α)) (m : CMap α) (endc : Coord) (sr : Cell α)
    (pid : NodeId) (st : SState α) (tcell : Cell α)
    (hres : cellOf m sr pid = some tcell)
    (hcell : lookupCell m tcell.x tcell.y ≠ none)
    (hvt : validTopoB topo = true) :
    parseNeighbors hfun topo m endc sr pid st ≠ .error .nilIndex := by
  unfold parseNeighbors
  simp only [hres]
  split
  · simp
  · match hlc : lookupCell m tcell.x tcell.y with
    | none => exact absurd hlc hcell
    | some c =>
      simp only [hlc]
      exact except_map_ne_nilIndex _ _
        (foldlM_no_nilIndex (parseNeighborsStep hfun topo m endc tcell pid) topo
          (fun s a ha =>
            parseNeighborsStep_no_nilIndex hfun topo m endc tcell pid s a hvt ha) _)

/-! ## Structural case analyses of the search steps -/

/-- A successful `checkTile` either leaves the state unchanged or performs
the accept-candidate update on a present, non-blocked target. -/
lemma checkTile_ok_cases (hfun : Cell α → Coord → α) (endc : Coord)
    (tmult : α) (tOpt : Option (Cell α × NodeId)) (parentId : NodeId)
    (px py : Int) (st st' : SState α)
    (h : checkTile hfun endc tmult tOpt parentId px py st = .ok st') :
    st' = st ∨ ∃ tc tid, tOpt = some (tc, tid) ∧ tc.blocked = false ∧
      discards st tid (candidateCost st parentId tc tmult) = false ∧
      st' = insertState st tid parentId (candidateCost st parentId tc tmult)
        (hfun tc endc) := by
  match tOpt with
  | none =>
    left
    simp only [checkTile] at h
    cases h
    rfl
  | some (tc, tid) =>
    match hbl : tc.blocked with
    | true =>
      left
      simp only [checkTile, hbl] at h
      simp at h
      exact h.symm
    | false =>
      rw [checkTile_eq hfun endc tmult tc tid parentId px py st hbl] at h
      by_cases hd : discards st tid (candidateCost st parentId tc tmult)
      · left
        rw [if_pos hd] at h
        cases h
        rfl
      · right
        rw [if_neg hd] at h
        split at h
        · cases h
        · cases h
          exact ⟨tc, tid, rfl, hbl, Bool.of_not_eq_true hd, rfl⟩

/-- Inner part of one expansion step, case analysis: corner suppression then
`checkTile`, for an arbitrary resolved target. -/
lemma parseStep_inner_ok_cases (hfun : Cell α → Coord → α)
    (topo : List (Neighbor α)) (m : CMap α) (endc : Coord) (tcell : Cell α)
    (pid : NodeId) (st : SState α) (nb : Neighbor α)
    (tOpt : Option (Cell α × NodeId)) (st' : SState α)
    (h : (match nb.blockedBy with
     | some (b1, b2) => do
        let n2 ← flankBlocked m topo tcell.x tcell.y b1
        let n3 ← flankBlocked m topo tcell.x tcell.y b2
        if n2 && n3 then pure st
        else checkTile hfun endc nb.pathCost tOpt pid tcell.x tcell.y st
     | none => checkTile hfun endc nb.pathCost tOpt pid tcell.x tcell.y st) =
      (.ok st' : Except AErr (SState α))) :
    st' = st ∨
      checkTile hfun endc nb.pathCost tOpt pid tcell.x tcell.y st = .ok st' := by
  match h4 : nb.blockedBy with
  | none =>
    rw [h4] at h
    exact Or.inr h
  | some (b1, b2) =>
    rw [h4] at h
    simp only [Bind.bind, Except.bind] at h
    match h5 : flankBlocked m topo tcell.x tcell.y b1 with
    | .error e => simp only [h5] at h; cases h
    | .ok v1 =>
      simp only [h5] at h
      match h6 : flankBlocked m topo tcell.x tcell.y b2 with
      | .error e => simp only [h6] at h; cases h
      | .ok v2 =>
        simp only [h6] at h
        split at h
        · left
          exact (Except.ok.inj h).symm
        · exact Or.inr h

/-- A successful expansion step either leaves the state unchanged or is a
`checkTile` call whose target, when present, is the map cell at the popped
node's coordinates shifted by the descriptor offset. -/
lemma parseNeighborsStep_ok_cases (hfun : Cell α → Coord → α)
    (topo : List (Neighbor α)) (m : CMap α) (endc : Coord) (tcell : Cell α)
    (pid : NodeId) (st st' : SState α) (nb : Neighbor α)
    (h : parseNeighborsStep hfun topo m endc tcell pid st nb = .ok st') :
    st' = st ∨ ∃ tOpt, checkTile hfun endc nb.pathCost tOpt pid tcell.x
        tcell.y st = .ok st' ∧
      (tOpt = none ∨ ∃ c, tOpt = some (c, NodeId.cell (tcell.x + nb.x)
        (tcell.y + nb.y)) ∧
        lookupCell m (tcell.x + nb.x) (tcell.y + nb.y) = some c) := by
  unfold parseNeighborsStep at h
  match h2 : lookupRow m (tcell.x + nb.x) with
  | none =>
    rw [h2] at h
    cases h
    left
    rfl
  | some row =>
    rw [h2] at h
    dsimp only at h
    match h3 : (if 0 ≤ tcell.y + nb.y then
        row.get? (tcell.y + nb.y).toNat else none) with
    | none =>
      rw [h3] at h
      split at h
      · cases h; left; rfl
      · rcases parseStep_inner_ok_cases hfun topo m endc tcell pid st nb _ st' h
          with h7 | h7
        · left; exact h7
        · exact Or.inr ⟨none, h7, Or.inl rfl⟩
    | some c =>
      rw [h3] at h
      have hlc : lookupCell m (tcell.x + nb.x) (tcell.y + nb.y) = some c := by
        unfold lookupCell
        rw [h2, ← h3]
      split at h
      · cases h; left; rfl
      · rcases parseStep_inner_ok_cases hfun topo m endc tcell pid st nb _ st' h
          with h7 | h7
        · left; exact h7
        · exact Or.inr ⟨some (c, NodeId.cell (tcell.x + nb.x) (tcell.y + nb.y)),
            h7, Or.inr ⟨c, rfl, hlc⟩⟩

/-- Decomposition of a successful non-goal `parseNeighbors` call: the goal
test failed, the popped node's flags were set, the cell keyed by its
coordinate fields was added to the closed set, and the descriptor fold ran
from there. -/
lemma parseNeighbors_next_cases (hfun : Cell α → Coord → α)
    (topo : List (Neighbor α)) (m : CMap α) (endc : Coord) (sr : Cell α)
    (pid : NodeId) (st st' : SState α)
    (h : parseNeighbors hfun topo m endc sr pid st = .ok (none, st')) :
    ∃ tcell c1, cellOf m sr pid = some tcell ∧
      ¬(tcell.x = endc.1 ∧ tcell.y = endc.2) ∧
      lookupCell m tcell.x tcell.y = some c1 ∧
      List.foldlM (parseNeighborsStep hfun topo m endc tcell pid)
        (closeNode st pid (NodeId.cell tcell.x tcell.y)) topo = .ok st' := by
  unfold parseNeighbors at h
  rcases h2 : cellOf m sr pid with - | tcell
  · simp only [h2] at h
    cases h
  · simp only [h2] at h
    split at h
    · simp at h
    · rcases h3 : lookupCell m tcell.x tcell.y with - | c1
      · simp only [h3] at h
        cases h
      · simp only [h3] at h
        refine ⟨tcell, c1, rfl, by assumption, h3, ?_⟩
        rcases h4 : List.foldlM (parseNeighborsStep hfun topo m endc tcell pid)
            (closeNode st pid (NodeId.cell tcell.x tcell.y)) topo with e | stX
        · rw [h4] at h; cases h
        · rw [h4] at h
          simp only [Except.map, Except.ok.injEq, Prod.mk.injEq, true_and] at h
          rw [← h]

/-- Decomposition of a goal-hit `parseNeighbors` call: the state is returned
untouched, the found node is the popped one, and its coordinate fields equal
the goal coordinate. -/
lemma parseNeighbors_found_cases (hfun : Cell α → Coord → α)
    (topo : List (Neighbor α)) (m : CMap α) (endc : Coord) (sr : Cell α)
    (pid : NodeId) (st : SState α) (gid : NodeId) (stF : SState α)
    (h : parseNeighbors hfun topo m endc sr pid st = .ok (some gid, stF)) :
    stF = st ∧ gid = pid ∧
      ∃ tcell, cellOf m sr pid = some tcell ∧
        tcell.x = endc.1 ∧ tcell.y = endc.2 := by
  unfold parseNeighbors at h
  rcases h2 : cellOf m sr pid with - | tcell
  · simp only [h2] at h
    cases h
  · simp only [h2] at h
    split at h
    · rename_i hgoal
      simp only [Except.ok.injEq, Prod.mk.injEq, Option.some.injEq] at h
      exact ⟨h.2.symm, h.1.symm, tcell, rfl, hgoal.1, hgoal.2⟩
    · rcases h3 : lookupCell m tcell.x tcell.y with - | c1
      · simp only [h3] at h
        cases h
      · simp only [h3] at h
        rcases h4 : List.foldlM (parseNeighborsStep hfun topo m endc tcell pid)
            (closeNode st pid (NodeId.cell tcell.x tcell.y)) topo with e | stX
        · rw [h4] at h; cases h
        · rw [h4] at h
          simp [Except.map] at h

/-- Decomposition of a loop iteration that continues: a minimal entry was
popped and its expansion returned no goal. -/
lemma loopIter_next_cases (hfun : Cell α → Coord → α)
    (topo : List (Neighbor α)) (m : CMap α) (endc : Coord) (sr : Cell α)
    (st st' : SState α)
    (h : loopIter hfun topo m endc sr st = .ok (.next st')) :
    ∃ k pid rest, plTake st.openl = some ((k, pid), rest) ∧
      parseNeighbors hfun topo m endc sr pid { st with openl := rest } =
        .ok (none, st') := by
  unfold loopIter at h
  rcases h2 : plTake st.openl with - | ⟨⟨k, pid⟩, rest⟩
  · simp only [h2] at h
    cases h
  · simp only [h2] at h
    rcases h3 : parseNeighbors hfun topo m endc sr pid
        { st with openl := rest } with e | ⟨gOpt, stX⟩
    · rw [h3] at h
      cases h
    · rw [h3] at h
      match gOpt with
      | some g => simp at h
      | none =>
        simp only [StepOut.next.injEq, Except.ok.injEq] at h
        exact ⟨k, pid, rest, rfl, by rw [h3, h]⟩

/-- Decomposition of a loop iteration that finds the goal. -/
lemma loopIter_found_cases (hfun : Cell α → Coord → α)
    (topo : List (Neighbor α)) (m : CMap α) (endc : Coord) (sr : Cell α)
    (st stF : SState α) (gid : NodeId)
    (h : loopIter hfun topo m endc sr st = .ok (.found gid stF)) :
    ∃ k pid rest, plTake st.openl = some ((k, pid), rest) ∧
      parseNeighbors hfun topo m endc sr pid { st with openl := rest } =
        .ok (some gid, stF) := by
  unfold loopIter at h
  rcases h2 : plTake st.openl with - | ⟨⟨k, pid⟩, rest⟩
  · simp only [h2] at h
    cases h
  · simp only [h2] at h
    rcases h3 : parseNeighbors hfun topo m endc sr pid
        { st with openl := rest } with e | ⟨gOpt, stX⟩
    · rw [h3] at h
      cases h
    · rw [h3] at h
      match gOpt with
      | none => simp at h
      | some g =>
        simp only [StepOut.found.injEq, Except.ok.injEq] at h
        exact ⟨k, pid, rest, rfl, by rw [h3, h.1, h.2]⟩

/-- Inversion of a successful `astarInit`. -/
lemma astarInit_ok_cases (hfun : Cell α → Coord → α) (m : CMap α)
    (s e : Coord) (sr : Cell α) (st0 : SState α)
    (h : astarInit hfun m s e = .ok (sr, st0)) :
    ∃ sn en, lookupCell m s.1 s.2 = some sn ∧ lookupCell m e.1 e.2 = some en ∧
      sr = ⟨s.1, s.2, sn.blocked, sn.travelCost⟩ ∧
      st0 = SState.mk
        (fun j => if j = .copy then
          ⟨some sn.travelCost, some (hfun sn (en.x, en.y)),
            some (hfun sn (en.x, en.y) + sn.travelCost), none, none, none⟩
          else {})
        [(hfun sn (en.x, en.y) + sn.travelCost, .copy)] [] 0 := by
  unfold astarInit at h
  rcases h2 : lookupCell m s.1 s.2 with - | sn
  · simp only [h2] at h
    cases h
  · simp only [h2] at h
    rcases h3 : lookupCell m e.1 e.2 with - | en
    · simp only [h3] at h
      cases h
    · simp only [h3] at h
      simp only [Except.ok.injEq, Prod.mk.injEq] at h
      exact ⟨sn, en, rfl, rfl, h.1.symm, h.2.symm⟩

/-! ## Membership transport lemmas -/

lemma plIsPresent_iff [DecidableEq β] (l : List (α × β)) (id : β) :
    plIsPresent l id = true ↔ ∃ k, (k, id) ∈ l := by
  unfold plIsPresent
  rw [List.any_eq_true]
  constructor
  · rintro ⟨⟨k, i⟩, hm, hi⟩
    simp only [decide_eq_true_eq] at hi
    exact ⟨k, hi ▸ hm⟩
  · rintro ⟨k, hm⟩
    exact ⟨(k, id), hm, by simp⟩

lemma contains_iff (l : List NodeId) (id : NodeId) :
    l.contains id = true ↔ id ∈ l := by
  simp [List.contains]

/-- Open-list membership after an accept-candidate update comes from the
updated node or from prior membership. -/
lemma insertState_openl_mem (st : SState α) (tid parentId : NodeId)
    (g' hC : α) (id : NodeId)
    (h : plIsPresent (insertState st tid parentId g' hC).openl id = true) :
    id = tid ∨ plIsPresent st.openl id = true := by
  rw [plIsPresent_iff] at h
  obtain ⟨k, hm⟩ := h
  simp only [insertState, plPut, plRemove, List.mem_append,
    List.mem_filter, List.mem_singleton, Prod.mk.injEq] at hm
  rcases hm with ⟨hm, -⟩ | ⟨-, rfl⟩
  · exact Or.inr ((plIsPresent_iff st.openl id).mpr ⟨k, hm⟩)
  · exact Or.inl rfl

/-- Closed-set membership after an accept-candidate update comes from prior
membership. -/
lemma insertState_closed_mem (st : SState α) (tid parentId : NodeId)
    (g' hC : α) (id : NodeId)
    (h : (insertState st tid parentId g' hC).closed.contains id = true) :
    st.closed.contains id = true := by
  rw [contains_iff] at h ⊢
  simp only [insertState, List.mem_filter] at h
  exact h.1

lemma insertState_meta_ne (st : SState α) (tid parentId : NodeId)
    (g' hC : α) (id : NodeId) (hne : id ≠ tid) :
    (insertState st tid parentId g' hC).meta id = st.meta id := by
  simp [insertState, hne]

lemma insertState_meta_self (st : SState α) (tid parentId : NodeId)
    (g' hC : α) :
    (insertState st tid parentId g' hC).meta tid =
      { pathCost := some g'
        heuristicToEnd := some hC
        previous := some parentId
        totalWeight := some (g' + hC)
        inOpenList := some true
        inClosedList := (st.meta tid).inClosedList } := by
  simp [insertState]

lemma closeNode_openl (st : SState α) (pid kid : NodeId) :
    (closeNode st pid kid).openl = st.openl := by
  unfold closeNode closeFlags setMeta
  split <;> rfl

lemma closeNode_closed_mem (st : SState α) (pid kid id : NodeId)
    (h : (closeNode st pid kid).closed.contains id = true) :
    id = kid ∨ st.closed.contains id = true := by
  rw [contains_iff] at h
  unfold closeNode closeFlags setMeta at h
  split at h
  · exact Or.inr ((contains_iff _ _).mpr h)
  · simp only [List.mem_append, List.mem_singleton] at h
    rcases h with h | rfl
    · exact Or.inr ((contains_iff _ _).mpr h)
    · exact Or.inl rfl

lemma closeNode_meta (st : SState α) (pid kid id : NodeId) :
    (closeNode st pid kid).meta id =
      if id = pid then
        { st.meta id with inClosedList := some true, inOpenList := some false }
      else st.meta id := by
  unfold closeNode closeFlags setMeta
  split <;> rfl

/-- The `f/g/h` consistency of a metadata record depends only on its first
three fields. -/
lemma fghConsistent_of_eq_fields (m1 m2 : Meta α)
    (hg : m1.pathCost = m2.pathCost)
    (hh : m1.heuristicToEnd = m2.heuristicToEnd)
    (hf : m1.totalWeight = m2.totalWeight) :
    fghConsistent m2 → fghConsistent m1 := by
  unfold fghConsistent
  rw [hg, hh, hf]
  exact id

/-! ## The `f = g + h` store invariant -/

/-- Every node in the open or closed container — other than the bare closed
entry keying the start's map cell — carries full `f/g/h` metadata with
`f = g + h`. -/
def OpenClosedFgh (sx sy : Int) (st : SState α) : Prop :=
  ∀ id, (plIsPresent st.openl id = true ∨ st.closed.contains id = true) →
    id ≠ NodeId.cell sx sy → fghConsistent (st.meta id)

lemma checkTile_preserves_fgh {sx sy : Int} (hfun : Cell α → Coord → α)
    (endc : Coord) (tmult : α) (tOpt : Option (Cell α × NodeId))
    (parentId : NodeId) (px py : Int) (st st' : SState α)
    (h : checkTile hfun endc tmult tOpt parentId px py st = .ok st')
    (hInv : OpenClosedFgh sx sy st) : OpenClosedFgh sx sy st' := by
  rcases checkTile_ok_cases hfun endc tmult tOpt parentId px py st st' h with
    rfl | ⟨tc, tid, -, -, -, rfl⟩
  · exact hInv
  · intro id hm hne
    by_cases hid : id = tid
    · subst hid
      rw [insertState_meta_self]
      exact ⟨_, _, _, rfl, rfl, rfl, rfl⟩
    · rw [insertState_meta_ne _ _ _ _ _ _ hid]
      refine hInv id ?_ hne
      rcases hm with hm | hm
      · rcases insertState_openl_mem _ _ _ _ _ _ hm with rfl | hm2
        · exact absurd rfl hid
        · exact Or.inl hm2
      · exact Or.inr (insertState_closed_mem _ _ _ _ _ _ hm)

lemma parseNeighborsStep_preserves_fgh {sx sy : Int}
    (hfun : Cell α → Coord → α) (topo : List (Neighbor α)) (m : CMap α)
    (endc : Coord) (tcell : Cell α) (pid : NodeId) (st st' : SState α)
    (nb : Neighbor α)
    (h : parseNeighborsStep hfun topo m endc tcell pid st nb = .ok st')
    (hInv : OpenClosedFgh sx sy st) : OpenClosedFgh sx sy st' := by
  rcases parseNeighborsStep_ok_cases hfun topo m endc tcell pid st st' nb h with
    rfl | ⟨tOpt, hck, -⟩
  · exact hInv
  · exact checkTile_preserves_fgh hfun endc nb.pathCost tOpt pid tcell.x
      tcell.y st st' hck hInv

/-- One continuing loop iteration preserves the `f = g + h` store invariant
on a coherent map. -/
lemma loopIter_next_preserves_fgh {sx sy : Int} (hfun : Cell α → Coord → α)
    (topo : List (Neighbor α)) (m : CMap α) (endc : Coord) (sr : Cell α)
    (st st' : SState α) (hcoh : Coherent m) (hsx : sr.x = sx) (hsy : sr.y = sy)
    (h : loopIter hfun topo m endc sr st = .ok (.next st'))
    (hInv : OpenClosedFgh sx sy st) : OpenClosedFgh sx sy st' := by
  obtain ⟨k, pid, rest, htake, hparse⟩ :=
    loopIter_next_cases hfun topo m endc sr st st' h
  obtain ⟨hmem, hrest⟩ := plTake_eq st.openl _ _ htake
  have hInvPop : OpenClosedFgh sx sy { st with openl := rest } := by
    intro id hm hne
    refine hInv id ?_ hne
    rcases hm with hm | hm
    · rw [plIsPresent_iff] at hm
      obtain ⟨k2, hm2⟩ := hm
      subst hrest
      exact Or.inl ((plIsPresent_iff _ _).mpr ⟨k2, List.mem_of_mem_erase hm2⟩)
    · exact Or.inr hm
  obtain ⟨tcell, c1, hres, -, hlc, hfold⟩ :=
    parseNeighbors_next_cases hfun topo m endc sr pid _ st' hparse
  have hpidmem : plIsPresent st.openl pid = true :=
    (plIsPresent_iff _ _).mpr ⟨k, hmem⟩
  have hInvClose : OpenClosedFgh sx sy
      (closeNode { st with openl := rest } pid (NodeId.cell tcell.x tcell.y)) := by
    intro id hm hne
    rw [closeNode_meta]
    rcases hm with hm | hm
    · rw [closeNode_openl] at hm
      have h5 := hInvPop id (Or.inl hm) hne
      split
      · exact fghConsistent_of_eq_fields _ _ rfl rfl rfl h5
      · exact h5
    · rcases closeNode_closed_mem _ _ _ _ hm with rfl | hm2
      · match hpid : pid with
        | .copy =>
          exfalso
          simp only [cellOf] at hres
          cases hres
          exact hne (by rw [hsx, hsy])
        | .cell px py =>
          simp only [cellOf] at hres
          obtain ⟨hx, hy⟩ := hcoh px py tcell hres
          have hkid : NodeId.cell tcell.x tcell.y = NodeId.cell px py := by
            rw [hx, hy]
          have h5 := hInv (NodeId.cell px py)
            (Or.inl hpidmem) (by rw [← hkid]; exact hne)
          rw [hkid]
          split
          · exact fghConsistent_of_eq_fields _ _ rfl rfl rfl h5
          · exact h5
      · have h5 := hInvPop id (Or.inr hm2) hne
        split
        · exact fghConsistent_of_eq_fields _ _ rfl rfl rfl h5
        · exact h5
  exact foldlM_preserve (parseNeighborsStep hfun topo m endc tcell pid) topo
    (fun s a _ hP s2 hs2 =>
      parseNeighborsStep_preserves_fgh hfun topo m endc tcell pid s s2 a hs2 hP)
    _ st' hInvClose hfold

/-- The invariant transported along any number of loop iterations. -/
lemma stepN_preserves_fgh {sx sy : Int} (hfun : Cell α → Coord → α)
    (topo : List (Neighbor α)) (m : CMap α) (endc : Coord) (sr : Cell α)
    (hcoh : Coherent m) (hsx : sr.x = sx) (hsy : sr.y = sy) :
    ∀ (n : Nat) (st0 st : SState α),
      stepN hfun topo m endc sr n st0 = some st →
      OpenClosedFgh sx sy st0 → OpenClosedFgh sx sy st := by
  intro n
  induction n with
  | zero =>
    intro st0 st h hInv
    simp only [stepN, Option.some.injEq] at h
    rwa [← h]
  | succ n ih =>
    intro st0 st h hInv
    simp only [stepN] at h
    rcases h2 : loopIter hfun topo m endc sr st0 with e | out
    · rw [h2] at h
      cases h
    · rw [h2] at h
      match out with
      | .exhausted s => simp at h
      | .found g s => simp at h
      | .next s =>
        exact ih s st h (loopIter_next_preserves_fgh hfun topo m endc sr st0 s
          hcoh hsx hsy h2 hInv)


/-- C5 (code bug evidence): in the source's default `neighbors` list the
four orthogonal moves carry multiplier `1` and the four diagonal moves carry
multiplier `√2`, but the diagonal descriptor at index 5 — offset `(-1, +1)`
— carries `blockedBy = [0, 5]`: its second corner-block index names the
diagonal descriptor itself (offset `(-1, +1)`, not a unit move), although
the orthogonal descriptors flanking `(-1, +1)` sit at indices 0 (offset
`(-1, 0)`) and 3 (offset `(0, +1)`).  The claim that every diagonal's
`cornerBlockPair` names exactly its two flanking orthogonal indices is
therefore false at index 5 (the correct pair is `[0, 3]`). -/
theorem default_neighbors_corner_pair_bug :
    ∃ nb : Neighbor ℝ,
      (neighbors (Real.sqrt 2)).get? 5 = some nb ∧
      nb.x = -1 ∧ nb.y = 1 ∧ nb.pathCost = Real.sqrt 2 ∧
      nb.blockedBy = some (0, 5) ∧
      ((neighbors (Real.sqrt 2)).get? 0).map (fun o => (o.x, o.y, o.pathCost)) =
        some (-1, 0, 1) ∧
      ((neighbors (Real.sqrt 2)).get? 3).map (fun o => (o.x, o.y, o.pathCost)) =
        some (0, 1, 1) ∧
      nb.x.natAbs + nb.y.natAbs ≠ 1 :=
  ⟨⟨-1, 1, Real.sqrt 2, some (0, 5)⟩, rfl, rfl, rfl, rfl, rfl, rfl, rfl,
    by decide⟩

/-! ## Claim C8 — no validation in `configurePathableNeighbors` -/

/-- C8 (counterexample): a topology whose `blockedBy` names the out-of-range
index 99 is installed by `configurePathableNeighbors` unchanged — no error,
no rejection — and a subsequent search on an open 2×2 map then dies deep in
the expansion loop with the nil-indexing runtime error, exactly what the
claim says configuration-time validation prevents. -/
theorem configure_malformed_accepted_cex :
    configurePathableNeighbors badTopo = badTopo ∧
    astar h0q badTopo map22 (0, 0) (1, 1) 9 = some (.error .nilIndex) :=
  ⟨rfl, rfl⟩

/-- C8 (amended): `configurePathableNeighbors` installs any descriptor list
unchanged and performs no validation at all; a `cornerBlockPair` index at or
beyond the end of the active list is not rejected at configuration time but
instead raises the nil-indexing error inside the search loop when its
descriptor is expanded. -/
theorem configure_no_validation :
    (∀ (n : List (Neighbor α)), configurePathableNeighbors n = n) ∧
    ∀ (m : CMap α) (topo : List (Neighbor α)) (tx ty : Int) (bi : Nat),
      topo.length ≤ bi → flankBlocked m topo tx ty bi = .error .nilIndex := by
  refine ⟨fun n => rfl, fun m topo tx ty bi hbi => ?_⟩
  unfold flankBlocked
  rw [List.get?_eq_none.mpr hbi]

theorem configure_no_validation_witness :
    configurePathableNeighbors badTopo = badTopo ∧
    flankBlocked ([] : CMap ℤ) badTopo 0 0 99 = .error .nilIndex :=
  ⟨(@configure_no_validation ℤ _).1 badTopo,
    (@configure_no_validation ℤ _).2 [] badTopo 0 0 99 (by decide)⟩

/-! ## Claim C3 — frontier exhaustion is a normal empty result -/

/-- C3: whenever the open frontier becomes exhausted without the goal being
popped, `astar` returns the empty path and raises no error: the
back-pointer walk starts from an absent node, the `revpath` construction of
an empty walk is the empty list, and the run's outcome is `ok`. -/
theorem astar_exhaustion_empty_path (hfun : Cell α → Coord → α)
    (topo : List (Neighbor α)) (m : CMap α) (s e : Coord) (fuel : Nat)
    (sr : Cell α) (st0 stF : SState α)
    (hinit : astarInit hfun m s e = .ok (sr, st0))
    (hrun : runLoop hfun topo m e sr fuel st0 = some (.ok (.exhausted stF))) :
    astar hfun topo m s e fuel = some (.ok []) := by
  simp [astar, astarWithState, hinit, hrun, Except.map]

theorem astar_exhaustion_empty_path_witness :
    astar h0q topo4 map31b (0, 0) (2, 0) 2 = some (.ok []) :=
  astar_exhaustion_empty_path h0q topo4 map31b (0, 0) (2, 0) 2
    ⟨0, 0, false, 1⟩ st31b st31bF rfl rfl

/-! ## Claim C7 — the 2-hop back-pointer cycle abort -/

/-- C7 counterexample (generic variant): the 2-hop cycle condition — the
popped parent's back-pointer aims back at the freshly updated neighbor —
aborts the generic variant's run with the bare `error("loop detected")`,
which names no coordinates: the source's message is the fixed string, the
variant's nodes carry no coordinate fields, and the model's error payload
is accordingly the unit value.  Here node 2, expanded from parent 1 whose
`previous` is node 2, raises exactly that data-free abort. -/
theorem generic_loop_abort_names_no_coordinates_cex :
    gCheckTile gcb (some 2) 1 99
      ⟨gffi0, fun j => if j = 1 then some 2 else none, [], []⟩ =
      .error () :=
  rfl

/-- C7 (amended): in the grid variant, during reconciliation, immediately
after a neighbor's back-pointer is set to the popped parent, if the 2-hop
cycle condition holds — the parent's own back-pointer aims back at the
neighbor (equivalently, parent and neighbor are the same object) —
`checkTile` aborts the run with the fatal `loopDetected` error carrying the
coordinates of the two offending nodes, an outcome structurally distinct
from the normal no-path result `ok []`.  The generic variant performs the
same conditional abort but its error is the bare string `"loop detected"`
with no coordinates (see the counterexample), so the coordinate-naming
clause holds only here. -/
theorem checkTile_two_hop_cycle_aborts (hfun : Cell α → Coord → α)
    (endc : Coord) (tmult : α) (tc : Cell α) (tid parentId : NodeId)
    (px py : Int) (st : SState α) (hb : tc.blocked = false)
    (hacc : discards st tid (candidateCost st parentId tc tmult) = false)
    (hcyc : parentId = tid ∨ (st.meta parentId).previous = some tid) :
    checkTile hfun endc tmult (some (tc, tid)) parentId px py st =
      .error (.loopDetected tc.x tc.y px py) := by
  rw [checkTile_eq hfun endc tmult tc tid parentId px py st hb, hacc]
  simp only [Bool.false_eq_true, if_false]
  have hp : ((insertState st tid parentId (candidateCost st parentId tc tmult)
      (hfun tc endc)).meta parentId).previous = some tid := by
    rcases hcyc with h | h
    · subst h
      simp [insertState]
    · by_cases he : parentId = tid
      · subst he; simp [insertState]
      · simp [insertState, he, h]
  rw [if_pos hp]

theorem checkTile_two_hop_cycle_aborts_witness :
    checkTile h0q (9, 9) 1 (some (⟨1, 0, false, 1⟩, NodeId.cell 1 0))
      (NodeId.cell 2 0) 2 0 stC7 = .error (.loopDetected 1 0 2 0) :=
  checkTile_two_hop_cycle_aborts h0q (9, 9) 1 ⟨1, 0, false, 1⟩
    (NodeId.cell 1 0) (NodeId.cell 2 0) 2 0 stC7 rfl rfl (Or.inr rfl)

/-! ## Claim C10 — out-of-map neighbor offsets never raise -/

/-- C10: expanding an in-bounds popped node is safe against offsets that
leave the map: a missing row is skipped by the guard before any indexing, a
missing cell inside an existing row reaches `checkTile` as an absent target
— which returns the state unchanged at once — and, provided the active
topology's corner-block indices are in range (as the default topology's
are), `parseNeighbors` never raises the nil-indexing error. -/
theorem expansion_out_of_bounds_safe (hfun : Cell α → Coord → α)
    (topo : List (Neighbor α)) (m : CMap α) (endc : Coord) (sr : Cell α)
    (pid : NodeId) (st : SState α) (tcell : Cell α) (tmult : α)
    (parentId : NodeId) (px py : Int)
    (hres : cellOf m sr pid = some tcell)
    (hcell : lookupCell m tcell.x tcell.y ≠ none)
    (hvt : validTopoB topo = true) :
    checkTile hfun endc tmult none parentId px py st = .ok st ∧
    parseNeighbors hfun topo m endc sr pid st ≠ .error .nilIndex :=
  ⟨rfl, parseNeighbors_no_nilIndex_core hfun topo m endc sr pid st tcell
    hres hcell hvt⟩

theorem expansion_out_of_bounds_safe_witness :
    checkTile h0q (2, 0) 1 none NodeId.copy 0 0 (@emptySState ℤ) =
      .ok (@emptySState ℤ) ∧
    parseNeighbors h0q topo4 map31 (2, 0) ⟨0, 0, false, 1⟩ (NodeId.cell 0 0)
      (@emptySState ℤ) ≠ .error .nilIndex :=
  expansion_out_of_bounds_safe h0q topo4 map31 (2, 0) ⟨0, 0, false, 1⟩
    (NodeId.cell 0 0) (@emptySState ℤ) ⟨0, 0, false, 1⟩ 1 NodeId.copy 0 0
    rfl (by decide) rfl

/-! ## Coherence of concrete maps -/

/-- Bounded coherence check: every stored cell's coordinate fields agree
with its array position. -/
def coherentB (m : CMap α) : Bool :=
  (List.range m.length).all fun i =>
    match m.get? i with
    | none => true
    | some row => (List.range row.length).all fun j =>
      match row.get? j with
      | none => true
      | some c => decide (c.x = (i : Int)) && decide (c.y = (j : Int))

lemma coherent_of_coherentB (m : CMap α) (h : coherentB m = true) :
    Coherent m := by
  intro x y c hc
  unfold lookupCell lookupRow at hc
  by_cases hx : 0 ≤ x
  · rw [if_pos hx] at hc
    rcases h2 : m.get? x.toNat with - | row
    · simp only [h2] at hc
      cases hc
    · simp only [h2] at hc
      by_cases hy : 0 ≤ y
      · rw [if_pos hy] at hc
        have hxl : x.toNat < m.length := by
          rcases List.get?_eq_some.mp h2 with ⟨hl, -⟩
          exact hl
        have h3 := List.all_eq_true.mp h x.toNat (List.mem_range.mpr hxl)
        rw [h2] at h3
        have hyl : y.toNat < row.length := by
          rcases List.get?_eq_some.mp hc with ⟨hl, -⟩
          exact hl
        have h4 := List.all_eq_true.mp h3 y.toNat (List.mem_range.mpr hyl)
        rw [hc] at h4
        simp only [Bool.and_eq_true, decide_eq_true_eq] at h4
        constructor
        · rw [h4.1, Int.toNat_of_nonneg hx]
        · rw [h4.2, Int.toNat_of_nonneg hy]
      · rw [if_neg hy] at hc
        cases hc
  · rw [if_neg hx] at hc
    cases hc

/-! ## Claim C6 — per-run metadata persists on the caller's cells -/

/-- The final state of the open corridor run `(0,0) → (2,0)`. -/
def st31F : SState ℤ :=
  match astarWithState h0q topo4 map31 (0, 0) (2, 0) 20 with
  | some (.ok (_, st)) => st
  | _ => emptySState

/-- The loop-final state of the open corridor run (before `free()`). -/
def st31L : SState ℤ :=
  match runLoop h0q topo4 map31 (2, 0) ⟨0, 0, false, 1⟩ 20 st31 with
  | some (.ok (.found _ st)) => st
  | _ => emptySState

/-- C6 (counterexample): after a successful grid-variant run returns, the
caller's map cells still carry the per-run search metadata: the cell at
`(1,0)` keeps its `pathCost`, `totalWeight`, back-pointer to the seeded
start record and its membership flags, and the goal cell keeps its metadata
as well — nothing is discarded; only the open-list container is freed. -/
theorem astar_leaves_metadata_on_cells_cex :
    astarWithState h0q topo4 map31 (0, 0) (2, 0) 20 =
      some (.ok ([⟨2, 0, 2, 0⟩, ⟨1, 0, 2, 0⟩, ⟨0, 0, 1, 0⟩], st31F)) ∧
    (st31F.meta (NodeId.cell 1 0)).pathCost = some 2 ∧
    (st31F.meta (NodeId.cell 1 0)).totalWeight = some 2 ∧
    (st31F.meta (NodeId.cell 1 0)).previous = some NodeId.copy ∧
    (st31F.meta (NodeId.cell 1 0)).inClosedList = some true ∧
    (st31F.meta (NodeId.cell 1 0)).inOpenList = some false ∧
    (st31F.meta (NodeId.cell 2 0)).totalWeight = some 3 :=
  ⟨rfl, rfl, rfl, rfl, rfl, rfl, rfl⟩

/-- C6 (amended): after one grid-variant run, `astar` performs no cleanup of
per-run search state beyond `openList.free()`: the returned final state
keeps the loop-final metadata store and closed set byte-for-byte — so every
`pathCost`/`heuristicToEnd`/`totalWeight`/`previous`/flag written onto the
caller's cells during the run persists — and only the open container is
emptied. -/
theorem astar_frees_only_open_list (hfun : Cell α → Coord → α)
    (topo : List (Neighbor α)) (m : CMap α) (s e : Coord) (fuel : Nat)
    (sr : Cell α) (st0 : SState α)
    (hinit : astarInit hfun m s e = .ok (sr, st0)) :
    (∀ stF, runLoop hfun topo m e sr fuel st0 = some (.ok (.exhausted stF)) →
      astarWithState hfun topo m s e fuel =
        some (.ok ([], SState.mk stF.meta [] stF.closed stF.reopenCount))) ∧
    (∀ gid stF coords,
      runLoop hfun topo m e sr fuel st0 = some (.ok (.found gid stF)) →
      backwalkGo m sr stF fuel (some gid) = some (.ok coords) →
      astarWithState hfun topo m s e fuel =
        some (.ok (toLines coords,
          SState.mk stF.meta [] stF.closed stF.reopenCount))) := by
  constructor
  · intro stF hrun
    simp [astarWithState, hinit, hrun]
  · intro gid stF coords hrun hwalk
    simp [astarWithState, hinit, hrun, hwalk]

theorem astar_frees_only_open_list_witness :
    astarWithState h0q topo4 map31 (0, 0) (2, 0) 20 =
      some (.ok (toLines [(2, 0), (1, 0), (0, 0)],
        SState.mk st31L.meta [] st31L.closed st31L.reopenCount)) :=
  (astar_frees_only_open_list h0q topo4 map31 (0, 0) (2, 0) 20
    ⟨0, 0, false, 1⟩ st31 rfl).2 (NodeId.cell 2 0) st31L
    [(2, 0), (1, 0), (0, 0)] rfl rfl

/-! ## Claim C2 — the reconciliation discard rule -/

/-- C2 (counterexample): after the very first loop iteration of the open
corridor run, the real start cell sits in the closed set with no stored
`pathCost` at all.  When the search later offers it a candidate (here with
cost `g' = 3`), `checkTile` discards the candidate and leaves the state
untouched even though the claimed discard condition — membership with a
stored `g ≤ g'` — does not hold: there is no stored `g` whatsoever.  The
claimed equivalence is therefore false at this input. -/
theorem checkTile_discard_without_stored_g_cex :
    stepN h0q topo4 map31 (2, 0) ⟨0, 0, false, 1⟩ 1 st31 = some st31one ∧
    st31one.closed.contains (NodeId.cell 0 0) = true ∧
    (st31one.meta (NodeId.cell 0 0)).pathCost = none ∧
    candidateCost st31one (NodeId.cell 1 0) ⟨0, 0, false, 1⟩ 1 = 3 ∧
    checkTile h0q (2, 0) 1 (some (⟨0, 0, false, 1⟩, NodeId.cell 0 0))
      (NodeId.cell 1 0) 1 0 st31one = .ok st31one ∧
    ¬ storedLeCond st31one (NodeId.cell 0 0) 3 := by
  refine ⟨rfl, rfl, rfl, rfl, rfl, ?_⟩
  rintro ⟨-, g, hg, -⟩
  rw [show (st31one.meta (NodeId.cell 0 0)).pathCost = none from rfl] at hg
  cases hg

/-- C2 (amended): for a present, non-blocked neighbor (outside the 2-hop
abort situation), `checkTile` computes the candidate cost `g' = parent.g +
target.travelCost × tileTravelCost`; the candidate is discarded — with the
state left completely unchanged — exactly when the neighbor is already in
the open frontier or the closed set and its stored `g` is either absent or
`≤ g'`; otherwise the neighbor is removed from whichever container held it
(a closed-set removal being a reopening), its `g/h/f` are finalized with
`f = g' + h`, its back-pointer is set to the parent, and it is inserted
into the open frontier keyed by `f`. -/
theorem checkTile_reconciliation (hfun : Cell α → Coord → α) (endc : Coord)
    (tmult : α) (tc : Cell α) (tid parentId : NodeId) (px py : Int)
    (st : SState α) (hb : tc.blocked = false) (hne : parentId ≠ tid)
    (hnp : (st.meta parentId).previous ≠ some tid) :
    (discards st tid (candidateCost st parentId tc tmult) = true ↔
      ((plIsPresent st.openl tid = true ∨ st.closed.contains tid = true) ∧
        ∀ g, (st.meta tid).pathCost = some g →
          g ≤ candidateCost st parentId tc tmult)) ∧
    (discards st tid (candidateCost st parentId tc tmult) = true →
      checkTile hfun endc tmult (some (tc, tid)) parentId px py st = .ok st) ∧
    (discards st tid (candidateCost st parentId tc tmult) = false →
      checkTile hfun endc tmult (some (tc, tid)) parentId px py st =
        .ok (insertState st tid parentId (candidateCost st parentId tc tmult)
          (hfun tc endc))) := by
  have hloop : ((insertState st tid parentId
      (candidateCost st parentId tc tmult) (hfun tc endc)).meta
        parentId).previous ≠ some tid := by
    rw [insertState_meta_ne _ _ _ _ _ _ hne]
    exact hnp
  refine ⟨?_, ?_, ?_⟩
  · unfold discards
    constructor
    · intro h
      simp only [Bool.and_eq_true] at h
      obtain ⟨h1, h2⟩ := h
      refine ⟨by simpa using h1, ?_⟩
      intro g hg
      rw [hg] at h2
      simpa using h2
    · rintro ⟨h1, h2⟩
      simp only [Bool.and_eq_true]
      refine ⟨by simpa using h1, ?_⟩
      rcases hg : (st.meta tid).pathCost with - | g
      · simp [hg]
      · simp only [hg]
        simpa using h2 g hg
  · intro hd
    rw [checkTile_eq hfun endc tmult tc tid parentId px py st hb, if_pos hd]
  · intro hd
    rw [checkTile_eq hfun endc tmult tc tid parentId px py st hb, hd]
    simp only [Bool.false_eq_true, if_false]
    rw [if_neg hloop]

theorem checkTile_reconciliation_witness :
    checkTile h0q (2, 0) 1 (some (⟨0, 0, false, 1⟩, NodeId.cell 0 0))
      (NodeId.cell 1 0) 1 0 st31one = .ok st31one :=
  (checkTile_reconciliation h0q (2, 0) 1 ⟨0, 0, false, 1⟩ (NodeId.cell 0 0)
    (NodeId.cell 1 0) 1 0 st31one rfl (by decide) (by decide)).2.1 rfl

/-! ## Claim C9 — the `f = g + h` invariant -/

/-- C9 (counterexample): already after the first loop iteration the closed
set holds the start's map cell with no stored `totalWeight`, `pathCost` or
`heuristicToEnd` at all — the seeded start record, not the cell, carries the
start metadata — so not every node present in the containers satisfies
`f = g + h` with stored values. -/
theorem closed_start_cell_without_fgh_cex :
    stepN h0q topo4 map31 (2, 0) ⟨0, 0, false, 1⟩ 1 st31 = some st31one ∧
    st31one.closed.contains (NodeId.cell 0 0) = true ∧
    (st31one.meta (NodeId.cell 0 0)).totalWeight = none ∧
    ¬ fghConsistent (st31one.meta (NodeId.cell 0 0)) := by
  refine ⟨rfl, rfl, rfl, ?_⟩
  rintro ⟨g, h, f, hg, -, -, -⟩
  rw [show (st31one.meta (NodeId.cell 0 0)).pathCost = none from rfl] at hg
  cases hg

/-- C9 (amended): at every state the pop-and-expand loop reaches on a
coherent map, every node present in the open frontier or the closed set —
including the seeded start record and every node re-inserted after
reopening, but excluding the bare closed-set entry keying the start's map
cell, which never carries stored values — has `pathCost`, `heuristicToEnd`
and `totalWeight` all stored with `totalWeight = pathCost +
heuristicToEnd`. -/
theorem fgh_invariant (hfun : Cell α → Coord → α) (topo : List (Neighbor α))
    (m : CMap α) (s e : Coord) (sr : Cell α) (st0 : SState α) (n : Nat)
    (st : SState α) (hcoh : Coherent m)
    (hinit : astarInit hfun m s e = .ok (sr, st0))
    (hreach : stepN hfun topo m e sr n st0 = some st) :
    ∀ id, (plIsPresent st.openl id = true ∨ st.closed.contains id = true) →
      id ≠ NodeId.cell s.1 s.2 → fghConsistent (st.meta id) := by
  obtain ⟨sn, en, hs, he, hsr, hst0⟩ :=
    astarInit_ok_cases hfun m s e sr st0 hinit
  have hInv0 : OpenClosedFgh s.1 s.2 st0 := by
    intro id hm hne
    subst hst0
    rcases hm with hm | hm
    · rw [plIsPresent_iff] at hm
      obtain ⟨k, hk⟩ := hm
      simp only [List.mem_singleton, Prod.mk.injEq] at hk
      obtain ⟨-, rfl⟩ := hk
      exact ⟨sn.travelCost, hfun sn (en.x, en.y),
        hfun sn (en.x, en.y) + sn.travelCost, by simp, by simp, by simp,
        add_comm _ _⟩
    · simp [List.contains] at hm
  exact stepN_preserves_fgh hfun topo m e sr hcoh (by rw [hsr]) (by rw [hsr])
    n st0 st hreach hInv0

theorem fgh_invariant_witness :
    fghConsistent (st31one.meta (NodeId.cell 1 0)) :=
  fgh_invariant h0q topo4 map31 (0, 0) (2, 0) ⟨0, 0, false, 1⟩ st31 1 st31one
    (coherent_of_coherentB map31 (by decide)) rfl rfl (NodeId.cell 1 0)
    (Or.inl (by decide)) (by decide)

/-! ## Path-extraction lemmas -/

/-- Zipping against a longer list and projecting the first components back
out is the identity. -/
lemma zipWith_proj {γ : Type} (f : Coord → Coord → γ) (pr : γ → Coord)
    (hpr : ∀ a b, pr (f a b) = a) :
    ∀ (l l2 : List Coord), l.length ≤ l2.length →
      (l.zipWith f l2).map pr = l := by
  intro l
  induction l with
  | nil => intro l2 h; rfl
  | cons a l ih =>
    intro l2 h
    match l2 with
    | [] => simp at h
    | b :: l2 =>
      simp only [List.zipWith_cons_cons, List.map_cons, hpr, List.cons.injEq,
        true_and]
      exact ih l2 (by simpa using h)

/-- The coordinates of the produced `revpath` are exactly the walked
coordinates, in the same (goal-first) order. -/
lemma toLines_coords (l : List Coord) :
    (toLines l).map (fun li => (li.x, li.y)) = l := by
  match l with
  | [] => rfl
  | c :: rest =>
    unfold toLines
    exact zipWith_proj (fun p q => (⟨p.1, p.2, q.1, q.2⟩ : Line))
      (fun li => (li.x, li.y)) (fun a b => rfl) (c :: rest) (c :: c :: rest)
      (by simp)

lemma map_getLast? {γ δ : Type} (g : γ → δ) :
    ∀ (l : List γ), (l.map g).getLast? = l.getLast?.map g := by
  intro l
  induction l with
  | nil => rfl
  | cons a l ih =>
    match l with
    | [] => rfl
    | b :: l2 =>
      simp only [List.map_cons] at ih ⊢
      rw [List.getLast?_cons_cons, List.getLast?_cons_cons, ih]

/-! ## The back-pointer structure invariant -/

/-- Structural invariant of the back-pointer store: the seeded start record
has no back-pointer; every back-pointer points from a map cell to a node at
topology-adjacent position whose own back-pointer chain does not end
prematurely; and every open node is the seeded record or has a
back-pointer. -/
def BackPtrInv (topo : List (Neighbor α)) (s : Coord) (st : SState α) : Prop :=
  ((st.meta NodeId.copy).previous = none) ∧
  (∀ id p, (st.meta id).previous = some p →
    ((∃ nb ∈ topo, posOf s id =
        ((posOf s p).1 + nb.x, (posOf s p).2 + nb.y)) ∧
      id ≠ NodeId.copy ∧
      (p = NodeId.copy ∨ (st.meta p).previous ≠ none))) ∧
  (∀ k id, (k, id) ∈ st.openl →
    id = NodeId.copy ∨ (st.meta id).previous ≠ none)

lemma insertState_meta_prev_ne (st : SState α) (tid parentId id : NodeId)
    (g h : α) (hid : id = tid) :
    ((insertState st tid parentId g h).meta id).previous ≠ none := by
  subst hid
  rw [insertState_meta_self]
  simp

lemma parseNeighborsStep_preserves_backptr (hfun : Cell α → Coord → α)
    (topo : List (Neighbor α)) (m : CMap α) (endc : Coord) (s : Coord)
    (tcell : Cell α) (pid : NodeId) (st st' : SState α) (nb : Neighbor α)
    (hmem : nb ∈ topo)
    (hpos : posOf s pid = (tcell.x, tcell.y))
    (h : parseNeighborsStep hfun topo m endc tcell pid st nb = .ok st')
    (hInv : BackPtrInv topo s st ∧
      (pid = NodeId.copy ∨ (st.meta pid).previous ≠ none)) :
    BackPtrInv topo s st' ∧
      (pid = NodeId.copy ∨ (st'.meta pid).previous ≠ none) := by
  obtain ⟨⟨hC, hE, hO⟩, hpid⟩ := hInv
  rcases parseNeighborsStep_ok_cases hfun topo m endc tcell pid st st' nb h with
    rfl | ⟨tOpt, hck, htgt⟩
  · exact ⟨⟨hC, hE, hO⟩, hpid⟩
  · rcases checkTile_ok_cases hfun endc nb.pathCost tOpt pid tcell.x tcell.y
      st st' hck with rfl | ⟨tc, tid, hsome, -, -, rfl⟩
    · exact ⟨⟨hC, hE, hO⟩, hpid⟩
    · rcases htgt with hnone | ⟨c, hsome2, hlc⟩
      · rw [hnone] at hsome
        cases hsome
      · rw [hsome2] at hsome
        injection hsome with hsome
        injection hsome with hc htid
        subst htid
        have htid_ne_copy : NodeId.cell (tcell.x + nb.x) (tcell.y + nb.y) ≠
            NodeId.copy := by
          intro hcon
          cases hcon
        have hpos_tid : posOf s (NodeId.cell (tcell.x + nb.x) (tcell.y + nb.y)) =
            ((posOf s pid).1 + nb.x, (posOf s pid).2 + nb.y) := by
          rw [hpos]
          rfl
        set tid := NodeId.cell (tcell.x + nb.x) (tcell.y + nb.y) with htid_def
        have hmeta_self := insertState_meta_self st tid pid
          (candidateCost st pid tc nb.pathCost) (hfun tc endc)
        have hmeta_ne := insertState_meta_ne st tid pid
          (candidateCost st pid tc nb.pathCost) (hfun tc endc)
        refine ⟨⟨?_, ?_, ?_⟩, ?_⟩
        · rw [hmeta_ne NodeId.copy (fun hcon => htid_ne_copy hcon.symm)]
          exact hC
        · intro id p hidp
          by_cases hid : id = tid
          · subst hid
            rw [hmeta_self] at hidp
            injection hidp with hidp
            subst hidp
            refine ⟨⟨nb, hmem, hpos_tid⟩, htid_ne_copy, ?_⟩
            rcases hpid with hcopy | hprev
            · exact Or.inl hcopy
            · right
              by_cases hpt : pid = tid
              · exact insertState_meta_prev_ne st tid pid pid _ _ hpt
              · rw [hmeta_ne pid hpt]
                exact hprev
          · rw [hmeta_ne id hid] at hidp
            obtain ⟨hadj, hnc, hp⟩ := hE id p hidp
            refine ⟨hadj, hnc, ?_⟩
            rcases hp with hcopy | hprev
            · exact Or.inl hcopy
            · right
              by_cases hpt : p = tid
              · rw [hpt, hmeta_self]
                simp
              · rw [hmeta_ne p hpt]
                exact hprev
        · intro k id hkid
          simp only [insertState, plPut, plRemove, List.mem_append,
            List.mem_filter, List.mem_singleton, Prod.mk.injEq] at hkid
          rcases hkid with ⟨hkid, -⟩ | ⟨-, rfl⟩
          · rcases hO k id hkid with hcopy | hprev
            · exact Or.inl hcopy
            · right
              by_cases hit : id = tid
              · rw [hit, hmeta_self]
                simp
              · rw [hmeta_ne id hit]
                exact hprev
          · right
            rw [hmeta_self]
            simp
        · rcases hpid with hcopy | hprev
          · exact Or.inl hcopy
          · right
            by_cases hpt : pid = tid
            · exact insertState_meta_prev_ne st tid pid pid _ _ hpt
            · rw [hmeta_ne pid hpt]
              exact hprev

lemma closeNode_meta_previous (st : SState α) (pid kid id : NodeId) :
    ((closeNode st pid kid).meta id).previous = (st.meta id).previous := by
  rw [closeNode_meta]
  split <;> rfl

lemma loopIter_next_preserves_backptr (hfun : Cell α → Coord → α)
    (topo : List (Neighbor α)) (m : CMap α) (endc : Coord) (sr : Cell α)
    (s : Coord) (st st' : SState α) (hcoh : Coherent m)
    (hsx : sr.x = s.1) (hsy : sr.y = s.2)
    (h : loopIter hfun topo m endc sr st = .ok (.next st'))
    (hInv : BackPtrInv topo s st) : BackPtrInv topo s st' := by
  obtain ⟨k, pid, rest, htake, hparse⟩ :=
    loopIter_next_cases hfun topo m endc sr st st' h
  obtain ⟨hmem, hrest⟩ := plTake_eq st.openl _ _ htake
  obtain ⟨hC, hE, hO⟩ := hInv
  have hpid : pid = NodeId.copy ∨ (st.meta pid).previous ≠ none :=
    hO k pid hmem
  obtain ⟨tcell, c1, hres, -, hlc, hfold⟩ :=
    parseNeighbors_next_cases hfun topo m endc sr pid _ st' hparse
  have hpos : posOf s pid = (tcell.x, tcell.y) := by
    match pid with
    | .copy =>
      simp only [cellOf] at hres
      cases hres
      simp only [posOf]
      rw [hsx, hsy]
    | .cell px py =>
      simp only [cellOf] at hres
      obtain ⟨hx, hy⟩ := hcoh px py tcell hres
      simp only [posOf]
      rw [hx, hy]
  have hInvPop : BackPtrInv topo s { st with openl := rest } := by
    refine ⟨hC, hE, ?_⟩
    intro k2 id hkid
    subst hrest
    exact hO k2 id (List.mem_of_mem_erase hkid)
  have hInvClose : BackPtrInv topo s
      (closeNode { st with openl := rest } pid (NodeId.cell tcell.x tcell.y)) ∧
      (pid = NodeId.copy ∨
        ((closeNode { st with openl := rest } pid
          (NodeId.cell tcell.x tcell.y)).meta pid).previous ≠ none) := by
    obtain ⟨hC2, hE2, hO2⟩ := hInvPop
    refine ⟨⟨?_, ?_, ?_⟩, ?_⟩
    · rw [closeNode_meta_previous]
      exact hC2
    · intro id p hidp
      rw [closeNode_meta_previous] at hidp
      obtain ⟨hadj, hnc, hp⟩ := hE2 id p hidp
      refine ⟨hadj, hnc, ?_⟩
      rcases hp with hcopy | hprev
      · exact Or.inl hcopy
      · right
        rw [closeNode_meta_previous]
        exact hprev
    · intro k2 id hkid
      rw [closeNode_openl] at hkid
      rcases hO2 k2 id hkid with hcopy | hprev
      · exact Or.inl hcopy
      · right
        rw [closeNode_meta_previous]
        exact hprev
    · rcases hpid with hcopy | hprev
      · exact Or.inl hcopy
      · right
        rw [closeNode_meta_previous]
        exact hprev
  have hfinal := foldlM_preserve (parseNeighborsStep hfun topo m endc tcell pid)
    topo
    (fun s2 a ha hP s3 hs3 =>
      parseNeighborsStep_preserves_backptr hfun topo m endc s tcell pid s2 s3 a
        ha hpos hs3 hP)
    _ st' hInvClose hfold
  exact hfinal.1

/-- `BackPtrInv` holds at every state the loop reaches, and at any found
goal both the invariant and the facts needed to walk the path hold. -/
lemma runLoop_found_backptr (hfun : Cell α → Coord → α)
    (topo : List (Neighbor α)) (m : CMap α) (endc : Coord) (sr : Cell α)
    (s : Coord) (hcoh : Coherent m) (hsx : sr.x = s.1) (hsy : sr.y = s.2) :
    ∀ (fuel : Nat) (st0 : SState α) (gid : NodeId) (stF : SState α),
      runLoop hfun topo m endc sr fuel st0 = some (.ok (.found gid stF)) →
      BackPtrInv topo s st0 →
      BackPtrInv topo s stF ∧
        (gid = NodeId.copy ∨ (stF.meta gid).previous ≠ none) ∧
        posOf s gid = endc := by
  intro fuel
  induction fuel with
  | zero =>
    intro st0 gid stF h hInv
    simp [runLoop] at h
  | succ n ih =>
    intro st0 gid stF h hInv
    simp only [runLoop] at h
    rcases h2 : loopIter hfun topo m endc sr st0 with e | out
    · rw [h2] at h
      cases h
    · rw [h2] at h
      match out with
      | .exhausted s2 => simp at h
      | .next s2 =>
        exact ih s2 gid stF (by simpa using h)
          (loopIter_next_preserves_backptr hfun topo m endc sr s st0 s2 hcoh
            hsx hsy h2 hInv)
      | .found g2 s2 =>
        simp only [Option.some.injEq, Except.ok.injEq, LoopRes.found.injEq] at h
        obtain ⟨hg, hs⟩ := h
        obtain ⟨k, pid, rest, htake, hparse⟩ :=
          loopIter_found_cases hfun topo m endc sr st0 s2 g2 h2
        obtain ⟨hmem, hrest⟩ := plTake_eq st0.openl _ _ htake
        obtain ⟨hsf, hgp, tcell, hres, hex, hey⟩ :=
          parseNeighbors_found_cases hfun topo m endc sr pid _ g2 _ hparse
        obtain ⟨hC, hE, hO⟩ := hInv
        have hpid : g2 = NodeId.copy ∨ (s2.meta g2).previous ≠ none := by
          rw [hgp, hsf]
          exact hO k pid hmem
        have hInvF : BackPtrInv topo s s2 := by
          rw [hsf]
          refine ⟨hC, hE, ?_⟩
          intro k2 id hkid
          rw [hrest] at hkid
          exact hO k2 id (List.mem_of_mem_erase hkid)
        have hposg : posOf s g2 = endc := by
          rw [hgp]
          match pid, hres with
          | .copy, hres =>
            simp only [cellOf, Option.some.injEq] at hres
            subst hres
            simp only [posOf]
            refine Prod.ext_iff.mpr ⟨?_, ?_⟩
            · rw [← hsx]
              exact hex
            · rw [← hsy]
              exact hey
          | .cell px py, hres =>
            simp only [cellOf] at hres
            obtain ⟨hx, hy⟩ := hcoh px py tcell hres
            simp only [posOf]
            refine Prod.ext_iff.mpr ⟨?_, ?_⟩
            · rw [← hx]
              exact hex
            · rw [← hy]
              exact hey
        rw [← hg, ← hs]
        exact ⟨hInvF, hpid, hposg⟩

/-- `path[target] = nil` is reached as soon as the walk hits an absent
back-pointer, whatever fuel is left. -/
lemma backwalkGo_none (m : CMap α) (sr : Cell α) (st : SState α) :
    ∀ n, backwalkGo m sr st n none = some (.ok []) := by
  intro n
  cases n <;> rfl

/-- The seeded state satisfies the back-pointer invariant, and the fresh
start record carries the start coordinates. -/
lemma astarInit_backptr (hfun : Cell α → Coord → α) (topo : List (Neighbor α))
    (m : CMap α) (s e : Coord) (sr : Cell α) (st0 : SState α)
    (h : astarInit hfun m s e = .ok (sr, st0)) :
    BackPtrInv topo s st0 ∧ sr.x = s.1 ∧ sr.y = s.2 := by
  obtain ⟨sn, en, -, -, hsr, hst⟩ := astarInit_ok_cases hfun m s e sr st0 h
  have hprev : ∀ id : NodeId, (st0.meta id).previous = none := by
    intro id
    rw [hst]
    dsimp only
    split
    · rfl
    · rfl
  have hopen : st0.openl =
      [(hfun sn (en.x, en.y) + sn.travelCost, NodeId.copy)] := by
    rw [hst]
  refine ⟨⟨hprev _, ?_, ?_⟩, ?_, ?_⟩
  · intro id p hidp
    rw [hprev id] at hidp
    cases hidp
  · intro k id hkid
    left
    rw [hopen] at hkid
    exact congrArg Prod.snd (List.mem_singleton.mp hkid)
  · rw [hsr]
  · rw [hsr]

/-- From any node that is the seeded record or has a back-pointer, in a
state satisfying the invariant, the back-pointer walk yields a coordinate
list that starts at that node's position, ends at the start coordinate, and
whose consecutive entries are topology-adjacent. -/
lemma backwalkGo_spec (m : CMap α) (sr : Cell α) (st : SState α)
    (topo : List (Neighbor α)) (s : Coord)
    (hInv : BackPtrInv topo s st) (hcoh : Coherent m)
    (hsx : sr.x = s.1) (hsy : sr.y = s.2) :
    ∀ (fuel : Nat) (id : NodeId) (coords : List Coord),
      backwalkGo m sr st fuel (some id) = some (.ok coords) →
      (id = NodeId.copy ∨ (st.meta id).previous ≠ none) →
      coords.head? = some (posOf s id) ∧ coords.getLast? = some s ∧
        List.Chain' (fun a b => ∃ nb ∈ topo, a = (b.1 + nb.x, b.2 + nb.y))
          coords := by
  intro fuel
  induction fuel with
  | zero =>
    intro id coords h hid
    simp [backwalkGo] at h
  | succ n ih =>
    intro id coords h hid
    simp only [backwalkGo] at h
    rcases h2 : cellOf m sr id with - | c
    · rw [h2] at h
      simp at h
    · rw [h2] at h
      have hcpos : (c.x, c.y) = posOf s id := by
        match id, h2 with
        | .copy, h2 =>
          simp only [cellOf, Option.some.injEq] at h2
          subst h2
          simp only [posOf]
          exact Prod.ext_iff.mpr ⟨hsx, hsy⟩
        | .cell px py, h2 =>
          simp only [cellOf] at h2
          obtain ⟨hx, hy⟩ := hcoh px py c h2
          simp only [posOf]
          exact Prod.ext_iff.mpr ⟨hx, hy⟩
      rcases h3 : (st.meta id).previous with - | p
      · rw [h3, backwalkGo_none m sr st n] at h
        simp only [Option.some.injEq, Except.ok.injEq] at h
        subst h
        rcases hid with hcopy | hprev
        · subst hcopy
          refine ⟨by rw [hcpos]; rfl, ?_, List.chain'_singleton _⟩
          rw [List.getLast?_singleton, hcpos]
          rfl
        · exact absurd h3 hprev
      · rw [h3] at h
        obtain ⟨⟨nb, hnb, hadj⟩, -, hp⟩ := hInv.2.1 id p h3
        rcases h4 : backwalkGo m sr st n (some p) with - | w
        · rw [h4] at h
          simp at h
        · rw [h4] at h
          match w, h with
          | .error er, h => simp at h
          | .ok l, h =>
            simp only [Option.some.injEq, Except.ok.injEq] at h
            subst h
            obtain ⟨hhead, hlast, hchain⟩ := ih p l h4 hp
            refine ⟨by rw [hcpos]; rfl, ?_, ?_⟩
            · match l, hhead with
              | l0 :: l', hhead =>
                rw [List.getLast?_cons_cons]
                exact hlast
            · refine List.chain'_cons'.mpr ⟨?_, hchain⟩
              intro b hb
              rw [hhead] at hb
              injection hb with hb
              subst hb
              exact ⟨nb, hnb, by rw [hcpos, hadj]⟩

/-- Inversion of a completed `astar` run: either the loop exhausted the
frontier and the path is empty, or the goal was popped and the path is the
`revpath` image of the back-pointer walk from it. -/
lemma astar_ok_cases (hfun : Cell α → Coord → α) (topo : List (Neighbor α))
    (m : CMap α) (s e : Coord) (fuel : Nat) (lines : List Line)
    (h : astar hfun topo m s e fuel = some (.ok lines)) :
    ∃ sr st0, astarInit hfun m s e = .ok (sr, st0) ∧
      ((∃ stF, runLoop hfun topo m e sr fuel st0 =
          some (.ok (.exhausted stF)) ∧ lines = []) ∨
        (∃ gid stF coords,
          runLoop hfun topo m e sr fuel st0 = some (.ok (.found gid stF)) ∧
          backwalkGo m sr stF fuel (some gid) = some (.ok coords) ∧
          lines = toLines coords)) := by
  unfold astar astarWithState at h
  rcases h2 : astarInit hfun m s e with er | ⟨sr, st0⟩
  · rw [h2] at h
    simp [Except.map] at h
  · rw [h2] at h
    dsimp only at h
    refine ⟨sr, st0, rfl, ?_⟩
    rcases h3 : runLoop hfun topo m e sr fuel st0 with - | r
    · rw [h3] at h
      simp at h
    · rw [h3] at h
      match r, h with
      | .error er, h => simp [Except.map] at h
      | .ok (.exhausted stF), h =>
        left
        refine ⟨stF, rfl, ?_⟩
        dsimp only at h
        simp only [Option.map_some', Except.map, Option.some.injEq,
          Except.ok.injEq] at h
        exact h.symm
      | .ok (.found gid stF), h =>
        right
        dsimp only at h
        rcases h4 : backwalkGo m sr stF fuel (some gid) with - | w
        · rw [h4] at h
          simp at h
        · rw [h4] at h
          match w, h with
          | .error er, h => simp [Except.map] at h
          | .ok coords, h =>
            refine ⟨gid, stF, coords, rfl, h4, ?_⟩
            simp only [Option.map_some', Except.map, Option.some.injEq,
              Except.ok.injEq] at h
            exact h.symm

/-! ## Claim C1 — path order and endpoints -/

/-- C1 counterexample (generic variant): on a two-node graph where node 2
(the goal) is a neighbor of node 1 (the start), the run succeeds but the
returned sequence is `[0]` — the identity of the seeded start record, the
goal's predecessor — so its first element is not the goal, and the goal
appears nowhere in the returned path at all (`gBackwalk` collects only
`previous` identities, starting from the goal's predecessor). -/
theorem generic_path_omits_goal_cex :
    gAstar gcb gffi0 (fun _ => none) 0 1 2 20 = some (.ok (some [0])) ∧
      ([0] : List Nat).head? ≠ some 2 ∧ (2 : Nat) ∉ ([0] : List Nat) :=
  ⟨rfl, by decide, by decide⟩

/-- C1 (amended): in the grid variant the property does hold.  On a
coherent map, whenever `astar` returns a nonempty path — which happens
exactly when the goal was popped from the frontier — the path is in
goal-first order: its first element carries the goal coordinates, its last
element the start coordinates, and every consecutive pair of elements is
adjacent under the active neighbor topology.  (The generic variant violates
the first-element clause: its walk starts at the goal's predecessor and
omits the goal, as the counterexample shows.) -/
theorem grid_path_goal_first (hfun : Cell α → Coord → α)
    (topo : List (Neighbor α)) (m : CMap α) (s e : Coord) (fuel : Nat)
    (lines : List Line) (hcoh : Coherent m)
    (hrun : astar hfun topo m s e fuel = some (.ok lines))
    (hne : lines ≠ []) :
    (∃ l0, lines.head? = some l0 ∧ (l0.x, l0.y) = e) ∧
      (∃ ln, lines.getLast? = some ln ∧ (ln.x, ln.y) = s) ∧
      List.Chain' (fun l1 l2 => ∃ nb ∈ topo,
        (l1.x, l1.y) = (l2.x + nb.x, l2.y + nb.y)) lines := by
  obtain ⟨sr, st0, hinit, hcases⟩ :=
    astar_ok_cases hfun topo m s e fuel lines hrun
  obtain ⟨hInv0, hsx, hsy⟩ := astarInit_backptr hfun topo m s e sr st0 hinit
  rcases hcases with ⟨stF, hloop, rfl⟩ | ⟨gid, stF, coords, hloop, hwalk, rfl⟩
  · exact absurd rfl hne
  · obtain ⟨hInvF, hgid, hpos⟩ := runLoop_found_backptr hfun topo m e sr s
      hcoh hsx hsy fuel st0 gid stF hloop hInv0
    obtain ⟨hhead, hlast, hchain⟩ := backwalkGo_spec m sr stF topo s hInvF
      hcoh hsx hsy fuel gid coords hwalk hgid
    refine ⟨?_, ?_, ?_⟩
    · have h5 : (toLines coords).head?.map (fun li => (li.x, li.y)) =
          some e := by
        rw [← List.head?_map, toLines_coords, hhead, hpos]
      obtain ⟨l0, hl0, hl0e⟩ := Option.map_eq_some'.mp h5
      exact ⟨l0, hl0, hl0e⟩
    · have h5 : (toLines coords).getLast?.map (fun li => (li.x, li.y)) =
          some s := by
        rw [← map_getLast?, toLines_coords, hlast]
      obtain ⟨ln, hln, hlns⟩ := Option.map_eq_some'.mp h5
      exact ⟨ln, hln, hlns⟩
    · have h6 : List.Chain' (fun a b => ∃ nb ∈ topo,
          a = (b.1 + nb.x, b.2 + nb.y))
          ((toLines coords).map (fun li => (li.x, li.y))) := by
        rw [toLines_coords]
        exact hchain
      exact (List.chain'_map _).mp h6

theorem grid_path_goal_first_witness :
    (∃ l0, ([⟨2, 0, 2, 0⟩, ⟨1, 0, 2, 0⟩, ⟨0, 0, 1, 0⟩] : List Line).head? =
        some l0 ∧ (l0.x, l0.y) = ((2, 0) : Coord)) ∧
      (∃ ln,
        ([⟨2, 0, 2, 0⟩, ⟨1, 0, 2, 0⟩, ⟨0, 0, 1, 0⟩] : List Line).getLast? =
          some ln ∧ (ln.x, ln.y) = ((0, 0) : Coord)) ∧
      List.Chain' (fun l1 l2 => ∃ nb ∈ topo4,
        (l1.x, l1.y) = (l2.x + nb.x, l2.y + nb.y))
        ([⟨2, 0, 2, 0⟩, ⟨1, 0, 2, 0⟩, ⟨0, 0, 1, 0⟩] : List Line) :=
  grid_path_goal_first h0q topo4 map31 (0, 0) (2, 0) 20
    [⟨2, 0, 2, 0⟩, ⟨1, 0, 2, 0⟩, ⟨0, 0, 1, 0⟩]
    (coherent_of_coherentB map31 (by decide)) rfl (by decide)

/-! ## Termination machinery

The loop is proved terminating (for positive, bounded edge-cost products)
by a combinatorial measure: every stored `g` is a sum of `t0` and at most
`K` cost products, so it lives in a finite value set; every insertion
strictly lowers the target's position in that set, and every pop shrinks
the frontier. -/

/-- Values obtainable from the seed cost `t0` by exactly `d` additions of
cost products drawn from `F`. -/
def sumsAt (t0 : α) (F : Finset α) : Nat → Finset α
  | 0 => {t0}
  | (d + 1) => Finset.image₂ (· + ·) (sumsAt t0 F d) F

/-- All values obtainable with at most `K` additions. -/
def valueSet (t0 : α) (F : Finset α) (K : Nat) : Finset α :=
  (Finset.range (K + 1)).biUnion (fun d => sumsAt t0 F d)

/-- The number of admissible values strictly below `g`. -/
def rank (t0 : α) (F : Finset α) (K : Nat) (g : α) : Nat :=
  ((valueSet t0 F K).filter (fun v => v < g)).card

/-- One node identity per cell of the map. -/
def cellIds (m : CMap α) : List NodeId :=
  (List.range m.length).bind (fun i =>
    (List.range ((m.get? i).getD []).length).map
      (fun j : Nat => NodeId.cell (i : Int) (j : Int)))

/-- Every identity that can ever carry metadata: the seeded record and the
map cells. -/
def nodeUniverse (m : CMap α) : List NodeId :=
  NodeId.copy :: cellIds m

/-- How many candidate identities currently have a stored `g`. -/
def countStored (st : SState α) (l : List NodeId) : Nat :=
  (l.filter (fun id => ((st.meta id).pathCost).isSome)).length

/-- A node's contribution to the termination measure: the rank of its
stored `g`, or the full value-set size while undiscovered. -/
def nodeTerm (t0 : α) (F : Finset α) (K : Nat) (st : SState α)
    (id : NodeId) : Nat :=
  match (st.meta id).pathCost with
  | some g => rank t0 F K g
  | none => (valueSet t0 F K).card

/-- The termination measure: frontier size plus the total rank mass. -/
def searchMeasure (t0 : α) (F : Finset α) (K : Nat) (m : CMap α)
    (st : SState α) : Nat :=
  st.openl.length + ((nodeUniverse m).map (nodeTerm t0 F K st)).sum

/-- The invariant carried through the loop for the termination proof:
stored `g`s belong to map identities, are bounded sums of at most `K`
products, grow with the discovery count, imply container presence for map
cells, exist for every open node, and strictly decrease along back
pointers. -/
def TermInv (m : CMap α) (t0 ε cmax : α) (F : Finset α) (K : Nat)
    (st : SState α) : Prop :=
  (∀ id, ((st.meta id).pathCost).isSome = true → id ∈ nodeUniverse m) ∧
  (∀ id g, (st.meta id).pathCost = some g →
    (∃ d, d ≤ K ∧ g ∈ sumsAt t0 F d ∧ t0 + (d : α) * ε ≤ g) ∧
    g ≤ t0 + (countStored st (nodeUniverse m) : α) * cmax) ∧
  (∀ x y, ((st.meta (NodeId.cell x y)).pathCost).isSome = true →
    plIsPresent st.openl (NodeId.cell x y) = true ∨
      st.closed.contains (NodeId.cell x y) = true) ∧
  (∀ k id, (k, id) ∈ st.openl → ((st.meta id).pathCost).isSome = true) ∧
  (∀ id p, (st.meta id).previous = some p → ∃ gi gp,
    (st.meta id).pathCost = some gi ∧ (st.meta p).pathCost = some gp ∧
    gp < gi)

lemma sumsAt_add_mem (t0 : α) (F : Finset α) (d : Nat) (a c : α)
    (ha : a ∈ sumsAt t0 F d) (hc : c ∈ F) : a + c ∈ sumsAt t0 F (d + 1) := by
  simp only [sumsAt, Finset.mem_image₂]
  exact ⟨a, ha, c, hc, rfl⟩

lemma valueSet_of_sumsAt (t0 : α) (F : Finset α) (K d : Nat) (g : α)
    (hd : d ≤ K) (hg : g ∈ sumsAt t0 F d) : g ∈ valueSet t0 F K := by
  simp only [valueSet, Finset.mem_biUnion, Finset.mem_range]
  exact ⟨d, Nat.lt_succ_of_le hd, hg⟩

lemma rank_lt_card (t0 : α) (F : Finset α) (K : Nat) (g : α)
    (hg : g ∈ valueSet t0 F K) : rank t0 F K g < (valueSet t0 F K).card := by
  refine Finset.card_lt_card ⟨Finset.filter_subset _ _, ?_⟩
  intro hsub
  have := Finset.mem_filter.mp (hsub hg)
  exact absurd this.2 (lt_irrefl g)

lemma rank_lt_rank (t0 : α) (F : Finset α) (K : Nat) (g' g : α)
    (hg' : g' ∈ valueSet t0 F K) (hlt : g' < g) :
    rank t0 F K g' < rank t0 F K g := by
  refine Finset.card_lt_card ⟨?_, ?_⟩
  · intro v hv
    rw [Finset.mem_filter] at hv ⊢
    exact ⟨hv.1, hv.2.trans hlt⟩
  · intro hsub
    have hmem : g' ∈ (valueSet t0 F K).filter (fun v => v < g) :=
      Finset.mem_filter.mpr ⟨hg', hlt⟩
    have := Finset.mem_filter.mp (hsub hmem)
    exact absurd this.2 (lt_irrefl g')

lemma rank_le_card (t0 : α) (F : Finset α) (K : Nat) (g : α) :
    rank t0 F K g ≤ (valueSet t0 F K).card :=
  Finset.card_filter_le _ _

lemma cellIds_of_lookup (m : CMap α) (x y : Int) (c : Cell α)
    (h : lookupCell m x y = some c) : NodeId.cell x y ∈ cellIds m := by
  unfold lookupCell lookupRow at h
  by_cases hx : 0 ≤ x
  · rw [if_pos hx] at h
    match h2 : m.get? x.toNat with
    | none => rw [h2] at h; cases h
    | some row =>
      rw [h2] at h
      dsimp only at h
      by_cases hy : 0 ≤ y
      · rw [if_pos hy] at h
        have hxl : x.toNat < m.length := List.get?_eq_some.mp h2 |>.1
        have hyl : y.toNat < row.length := List.get?_eq_some.mp h |>.1
        unfold cellIds
        refine List.mem_bind.mpr ⟨x.toNat, List.mem_range.mpr hxl, ?_⟩
        have hin : NodeId.cell (x.toNat : Int) (y.toNat : Int) ∈
            (List.range ((m.get? x.toNat).getD []).length).map
              (fun j : Nat => NodeId.cell (x.toNat : Int) (j : Int)) := by
          refine List.mem_map_of_mem
            (fun j : Nat => NodeId.cell (x.toNat : Int) (j : Int)) ?_
          rw [h2]
          exact List.mem_range.mpr hyl
        have hxy : NodeId.cell x y =
            NodeId.cell (x.toNat : Int) (y.toNat : Int) := by
          rw [Int.toNat_of_nonneg hx, Int.toNat_of_nonneg hy]
        rw [hxy]
        exact hin
      · rw [if_neg hy] at h
        cases h
  · rw [if_neg hx] at h
    cases h

lemma filter_length_mono {β : Type} (l : List β) (p q : β → Bool)
    (hpq : ∀ a ∈ l, p a = true → q a = true) :
    (l.filter p).length ≤ (l.filter q).length := by
  induction l with
  | nil => simp
  | cons b l ih =>
    have ih2 := ih (fun c hc => hpq c (List.mem_cons_of_mem b hc))
    by_cases hp : p b = true
    · have hq := hpq b (List.mem_cons_self b l) hp
      simp only [List.filter_cons, hp, hq, if_true, List.length_cons]
      omega
    · rw [Bool.not_eq_true] at hp
      simp only [List.filter_cons, hp, Bool.false_eq_true, if_false]
      by_cases hq : q b = true
      · simp only [hq, if_true, List.length_cons]
        omega
      · rw [Bool.not_eq_true] at hq
        simp only [hq, Bool.false_eq_true, if_false]
        exact ih2

lemma filter_length_strict {β : Type} (l : List β) (p q : β → Bool)
    (hpq : ∀ a ∈ l, p a = true → q a = true) (x : β) (hx : x ∈ l)
    (hpx : p x = false) (hqx : q x = true) :
    (l.filter p).length < (l.filter q).length := by
  induction l with
  | nil => cases hx
  | cons b l ih =>
    rcases List.mem_cons.mp hx with h1 | hx2
    · have hmono := filter_length_mono l p q
        (fun c hc => hpq c (List.mem_cons_of_mem b hc))
      have hpb : p b = false := h1 ▸ hpx
      have hqb : q b = true := h1 ▸ hqx
      simp only [List.filter_cons, hpb, hqb, if_true, Bool.false_eq_true,
        if_false, List.length_cons]
      omega
    · have hrec := ih (fun c hc => hpq c (List.mem_cons_of_mem b hc)) hx2
      by_cases hp : p b = true
      · have hq := hpq b (List.mem_cons_self b l) hp
        simp only [List.filter_cons, hp, hq, if_true, List.length_cons]
        omega
      · rw [Bool.not_eq_true] at hp
        simp only [List.filter_cons, hp, Bool.false_eq_true, if_false]
        by_cases hq : q b = true
        · simp only [hq, if_true, List.length_cons]
          omega
        · rw [Bool.not_eq_true] at hq
          simp only [hq, Bool.false_eq_true, if_false]
          exact hrec

lemma map_sum_mono {β : Type} (l : List β) (f g : β → Nat)
    (hfg : ∀ a ∈ l, f a ≤ g a) : (l.map f).sum ≤ (l.map g).sum := by
  induction l with
  | nil => simp
  | cons b l ih =>
    simp only [List.map_cons, List.sum_cons]
    have h1 := hfg b (List.mem_cons_self b l)
    have h2 := ih (fun c hc => hfg c (List.mem_cons_of_mem b hc))
    omega

lemma map_sum_strict {β : Type} (l : List β) (f g : β → Nat)
    (hfg : ∀ a ∈ l, f a ≤ g a) (x : β) (hx : x ∈ l) (hfx : f x < g x) :
    (l.map f).sum < (l.map g).sum := by
  induction l with
  | nil => cases hx
  | cons b l ih =>
    simp only [List.map_cons, List.sum_cons]
    rcases List.mem_cons.mp hx with h1 | hx2
    · have h2 := map_sum_mono l f g (fun c hc => hfg c (List.mem_cons_of_mem b hc))
      have h3 : f b < g b := h1 ▸ hfx
      omega
    · have h1 := hfg b (List.mem_cons_self b l)
      have h2 := ih (fun c hc => hfg c (List.mem_cons_of_mem b hc)) hx2
      omega

lemma insertState_openl_length (st : SState α) (tid parentId : NodeId)
    (g' hC : α) :
    (insertState st tid parentId g' hC).openl.length ≤
      st.openl.length + 1 := by
  simp only [insertState, plPut, plRemove, List.length_append,
    List.length_singleton]
  have h := List.length_filter_le
    (fun e : α × NodeId => decide (e.2 ≠ tid)) st.openl
  omega

lemma insertState_present_ne (st : SState α) (tid parentId : NodeId)
    (g' hC : α) (id : NodeId) (hne : id ≠ tid) :
    plIsPresent (insertState st tid parentId g' hC).openl id = true ↔
      plIsPresent st.openl id = true := by
  rw [plIsPresent_iff, plIsPresent_iff]
  constructor
  · rintro ⟨k, hm⟩
    simp only [insertState, plPut, plRemove, List.mem_append, List.mem_filter,
      List.mem_singleton, Prod.mk.injEq] at hm
    rcases hm with ⟨hm, -⟩ | ⟨-, h2⟩
    · exact ⟨k, hm⟩
    · exact absurd h2 hne
  · rintro ⟨k, hm⟩
    refine ⟨k, ?_⟩
    simp only [insertState, plPut, plRemove, List.mem_append, List.mem_filter,
      List.mem_singleton, Prod.mk.injEq]
    left
    refine ⟨hm, ?_⟩
    simpa using hne

lemma insertState_contains_ne (st : SState α) (tid parentId : NodeId)
    (g' hC : α) (id : NodeId) (hne : id ≠ tid) :
    (insertState st tid parentId g' hC).closed.contains id = true ↔
      st.closed.contains id = true := by
  rw [contains_iff, contains_iff]
  simp only [insertState, List.mem_filter]
  constructor
  · exact fun h => h.1
  · intro h
    refine ⟨h, ?_⟩
    simpa using hne

lemma insertState_present_self (st : SState α) (tid parentId : NodeId)
    (g' hC : α) :
    plIsPresent (insertState st tid parentId g' hC).openl tid = true := by
  rw [plIsPresent_iff]
  exact ⟨g' + hC, by simp [insertState, plPut]⟩

lemma closeNode_meta_pathCost (st : SState α) (pid kid id : NodeId) :
    ((closeNode st pid kid).meta id).pathCost = (st.meta id).pathCost := by
  rw [closeNode_meta]
  split <;> rfl

lemma closeNode_contains_mono (st : SState α) (pid kid id : NodeId)
    (h : st.closed.contains id = true) :
    (closeNode st pid kid).closed.contains id = true := by
  unfold closeNode closeFlags setMeta
  dsimp only
  split
  · exact h
  · rw [contains_iff] at h ⊢
    simp only [List.mem_append]
    exact Or.inl h

lemma closeNode_contains_self (st : SState α) (pid kid : NodeId) :
    (closeNode st pid kid).closed.contains kid = true := by
  unfold closeNode closeFlags setMeta
  dsimp only
  split
  · rename_i h2
    exact h2
  · rw [contains_iff]
    simp

/-- Small characterizations of `nodeTerm`. -/
lemma nodeTerm_of_stored (t0 : α) (F : Finset α) (K : Nat) (st : SState α)
    (id : NodeId) (g : α) (hg : (st.meta id).pathCost = some g) :
    nodeTerm t0 F K st id = rank t0 F K g := by
  unfold nodeTerm
  rw [hg]

lemma nodeTerm_of_none (t0 : α) (F : Finset α) (K : Nat) (st : SState α)
    (id : NodeId) (hg : (st.meta id).pathCost = none) :
    nodeTerm t0 F K st id = (valueSet t0 F K).card := by
  unfold nodeTerm
  rw [hg]

/-- One `checkTile` call preserves the termination invariant and never
increases the measure, whatever the decision. -/
lemma checkTile_term_step (hfun : Cell α → Coord → α) (m : CMap α)
    (endc : Coord) (t0 ε cmax : α) (F : Finset α) (K : Nat)
    (hε : 0 < ε) (hcm : 0 ≤ cmax)
    (hFband : ∀ x ∈ F, ε ≤ x ∧ x ≤ cmax)
    (hK : ((nodeUniverse m).length : α) * cmax ≤ (K : α) * ε)
    (tmult : α) (tOpt : Option (Cell α × NodeId)) (parentId : NodeId)
    (px py : Int) (st st' : SState α)
    (h : checkTile hfun endc tmult tOpt parentId px py st = .ok st')
    (htOpt : tOpt = none ∨ ∃ c tx ty, tOpt = some (c, NodeId.cell tx ty) ∧
      lookupCell m tx ty = some c ∧ c.travelCost * tmult ∈ F)
    (hInv : TermInv m t0 ε cmax F K st)
    (hpar : ((st.meta parentId).pathCost).isSome = true) :
    TermInv m t0 ε cmax F K st' ∧
      ((st'.meta parentId).pathCost).isSome = true ∧
      searchMeasure t0 F K m st' ≤ searchMeasure t0 F K m st := by
  rcases checkTile_ok_cases hfun endc tmult tOpt parentId px py st st' h with
    rfl | ⟨tc, tid, htO, hbl, hdisc, rfl⟩
  · exact ⟨hInv, hpar, le_refl _⟩
  rcases htOpt with rfl | ⟨c, tx, ty, htO2, hlook, hprodF⟩
  · cases htO
  rw [htO2] at htO
  injection htO with htO
  injection htO with hceq htideq
  subst hceq
  subst htideq
  obtain ⟨I1, I2, I3, I4, I5⟩ := hInv
  obtain ⟨gp, hgp⟩ := Option.isSome_iff_exists.mp hpar
  have hgpr : candidateCost st parentId c tmult =
      gp + c.travelCost * tmult := by
    unfold candidateCost
    rw [hgp]
    rfl
  set cst := c.travelCost * tmult with hcst
  obtain ⟨hceps, hccm⟩ := hFband cst hprodF
  obtain ⟨⟨dp, hdpK, hdpS, hdpLB⟩, hdpUB⟩ := I2 parentId gp hgp
  set g' := candidateCost st parentId c tmult with hg'
  set tid := NodeId.cell tx ty with htiddef
  set st2 := insertState st tid parentId g' (hfun c endc) with hst2
  have hg'eq : g' = gp + cst := hgpr
  have htidU : tid ∈ nodeUniverse m :=
    List.mem_cons_of_mem _ (cellIds_of_lookup m tx ty c hlook)
  have hg'S : g' ∈ sumsAt t0 F (dp + 1) := by
    rw [hg'eq]
    exact sumsAt_add_mem t0 F dp gp cst hdpS hprodF
  have hg'LB : t0 + ((dp + 1 : Nat) : α) * ε ≤ g' := by
    rw [hg'eq]
    push_cast
    have h1 : t0 + ((dp : α) + 1) * ε = (t0 + (dp : α) * ε) + ε := by ring
    rw [h1]
    exact add_le_add hdpLB hceps
  have hmeta_self : st2.meta tid =
      { pathCost := some g'
        heuristicToEnd := some (hfun c endc)
        previous := some parentId
        totalWeight := some (g' + hfun c endc)
        inOpenList := some true
        inClosedList := (st.meta tid).inClosedList } :=
    insertState_meta_self st tid parentId g' (hfun c endc)
  have hmeta_ne : ∀ id, id ≠ tid → st2.meta id = st.meta id :=
    fun id hid => insertState_meta_ne st tid parentId g' (hfun c endc) id hid
  have hst2stored : (st2.meta tid).pathCost = some g' := by
    rw [hmeta_self]
  have hsome_mono : ∀ id, ((st.meta id).pathCost).isSome = true →
      ((st2.meta id).pathCost).isSome = true := by
    intro id hid
    by_cases hide : id = tid
    · subst hide
      rw [hst2stored]
      rfl
    · rw [hmeta_ne id hide]
      exact hid
  have hcnt_le : countStored st (nodeUniverse m) ≤
      countStored st2 (nodeUniverse m) := by
    unfold countStored
    exact filter_length_mono _ _ _ (fun a ha hp => hsome_mono a hp)
  have hcntle2 : countStored st2 (nodeUniverse m) ≤
      (nodeUniverse m).length := List.length_filter_le _ _
  have hcast_le : ((countStored st (nodeUniverse m) : Nat) : α) * cmax ≤
      ((countStored st2 (nodeUniverse m) : Nat) : α) * cmax :=
    mul_le_mul_of_nonneg_right ((@Nat.cast_le α _ _ _).mpr hcnt_le) hcm
  have hcast_le2 : ((countStored st2 (nodeUniverse m) : Nat) : α) * cmax ≤
      (((nodeUniverse m).length : Nat) : α) * cmax :=
    mul_le_mul_of_nonneg_right ((@Nat.cast_le α _ _ _).mpr hcntle2) hcm
  have hkey : g' ≤ t0 + (countStored st2 (nodeUniverse m) : α) * cmax ∧
      parentId ≠ tid ∧
      (∀ gold, (st.meta tid).pathCost = some gold → g' < gold) := by
    by_cases hstid : ((st.meta tid).pathCost).isSome = true
    · obtain ⟨gt, hgt⟩ := Option.isSome_iff_exists.mp hstid
      have hpres : (plIsPresent st.openl tid ||
          st.closed.contains tid) = true := by
        rcases I3 tx ty hstid with h1 | h1
        · rw [h1, Bool.true_or]
        · rw [h1, Bool.or_true]
      have hlt : g' < gt := by
        unfold discards at hdisc
        rw [hpres, hgt, Bool.true_and] at hdisc
        have hdisc2 : decide (gt ≤ g') = false := hdisc
        exact lt_of_not_le (of_decide_eq_false hdisc2)
      obtain ⟨-, hgtUB⟩ := I2 tid gt hgt
      refine ⟨?_, ?_, ?_⟩
      · have h6 : g' ≤ t0 + (countStored st (nodeUniverse m) : α) * cmax :=
          le_of_lt (lt_of_lt_of_le hlt hgtUB)
        linarith
      · intro hpe
        rw [hpe, hgt] at hgp
        injection hgp with hgp2
        have h7 : gp < g' := by
          rw [hg'eq]
          linarith
        rw [hgp2] at hlt
        linarith
      · intro gold hgold
        rw [hgold] at hgt
        injection hgt with hgt2
        rw [hgt2]
        exact hlt
    · have hstid2 : ((st.meta tid).pathCost).isSome = false := by
        rw [Bool.not_eq_true] at hstid
        exact hstid
      have hcnt_lt : countStored st (nodeUniverse m) <
          countStored st2 (nodeUniverse m) := by
        unfold countStored
        refine filter_length_strict _ _ _ (fun a ha hp => hsome_mono a hp)
          tid htidU hstid2 ?_
        rw [hst2stored]
        rfl
      refine ⟨?_, ?_, ?_⟩
      · have h5 : (countStored st (nodeUniverse m) + 1 : Nat) ≤
            countStored st2 (nodeUniverse m) := hcnt_lt
        have h6 : ((countStored st (nodeUniverse m) + 1 : Nat) : α) * cmax ≤
            ((countStored st2 (nodeUniverse m) : Nat) : α) * cmax :=
          mul_le_mul_of_nonneg_right ((@Nat.cast_le α _ _ _).mpr h5) hcm
        rw [hg'eq]
        push_cast at h6 ⊢
        linarith
      · intro hpe
        rw [hpe] at hpar
        rw [hpar] at hstid2
        cases hstid2
      · intro gold hgold
        rw [hgold] at hstid2
        cases hstid2
  obtain ⟨hub', hpartid, hnewlt⟩ := hkey
  have hd1K : dp + 1 ≤ K := by
    have h5 : g' ≤ t0 + (((nodeUniverse m).length : Nat) : α) * cmax := by
      linarith
    have h2 : ((dp + 1 : Nat) : α) * ε ≤
        (((nodeUniverse m).length : Nat) : α) * cmax := by
      linarith [le_trans hg'LB h5]
    have h3 : ((dp + 1 : Nat) : α) * ε ≤ (K : α) * ε := le_trans h2 hK
    have h4 : ((dp + 1 : Nat) : α) ≤ (K : α) :=
      le_of_mul_le_mul_right h3 hε
    exact_mod_cast h4
  have hdrop : nodeTerm t0 F K st2 tid < nodeTerm t0 F K st tid := by
    rw [nodeTerm_of_stored t0 F K st2 tid g' hst2stored]
    match h9 : (st.meta tid).pathCost with
    | some gt =>
      rw [nodeTerm_of_stored t0 F K st tid gt h9]
      exact rank_lt_rank t0 F K g' gt
        (valueSet_of_sumsAt t0 F K (dp + 1) g' hd1K hg'S) (hnewlt gt h9)
    | none =>
      rw [nodeTerm_of_none t0 F K st tid h9]
      exact rank_lt_card t0 F K g'
        (valueSet_of_sumsAt t0 F K (dp + 1) g' hd1K hg'S)
  refine ⟨⟨?_, ?_, ?_, ?_, ?_⟩, ?_, ?_⟩
  · intro id hid
    by_cases hide : id = tid
    · subst hide
      exact htidU
    · rw [hmeta_ne id hide] at hid
      exact I1 id hid
  · intro id g hidg
    by_cases hide : id = tid
    · subst hide
      rw [hst2stored] at hidg
      injection hidg with hidg
      subst hidg
      exact ⟨⟨dp + 1, hd1K, hg'S, hg'LB⟩, hub'⟩
    · rw [hmeta_ne id hide] at hidg
      obtain ⟨hgood, hub2⟩ := I2 id g hidg
      refine ⟨hgood, le_trans hub2 ?_⟩
      linarith
  · intro x y hxy
    by_cases hide : NodeId.cell x y = tid
    · rw [hide]
      exact Or.inl (insertState_present_self st tid parentId g' (hfun c endc))
    · rw [hmeta_ne _ hide] at hxy
      rcases I3 x y hxy with h1 | h1
      · exact Or.inl ((insertState_present_ne st tid parentId g'
          (hfun c endc) _ hide).mpr h1)
      · exact Or.inr ((insertState_contains_ne st tid parentId g'
          (hfun c endc) _ hide).mpr h1)
  · intro k id hkid
    simp only [hst2, insertState, plPut, plRemove, List.mem_append,
      List.mem_filter, List.mem_singleton, Prod.mk.injEq] at hkid
    rcases hkid with ⟨hkid, -⟩ | ⟨-, rfl⟩
    · exact hsome_mono id (I4 k id hkid)
    · rw [hst2stored]
      rfl
  · intro id p hidp
    by_cases hide : id = tid
    · subst hide
      rw [hmeta_self] at hidp
      injection hidp with hidp
      subst hidp
      refine ⟨g', gp, hst2stored, ?_, ?_⟩
      · rw [hmeta_ne parentId (fun hc => hpartid hc)]
        exact hgp
      · rw [hg'eq]
        linarith
    · rw [hmeta_ne id hide] at hidp
      obtain ⟨gi, gq, hgi, hgq, hlt2⟩ := I5 id p hidp
      refine ⟨gi, ?_⟩
      by_cases hpe : p = tid
      · subst hpe
        have hlt3 := hnewlt gq hgq
        refine ⟨g', ?_, hst2stored, lt_trans hlt3 hlt2⟩
        rw [hmeta_ne id hide]
        exact hgi
      · refine ⟨gq, ?_, ?_, hlt2⟩
        · rw [hmeta_ne id hide]
          exact hgi
        · rw [hmeta_ne p hpe]
          exact hgq
  · by_cases hpe : parentId = tid
    · rw [hpe, hst2stored]
      rfl
    · rw [hmeta_ne parentId hpe, hgp]
      rfl
  · unfold searchMeasure
    have hlen : st2.openl.length ≤ st.openl.length + 1 :=
      insertState_openl_length st tid parentId g' (hfun c endc)
    have hsum : ((nodeUniverse m).map (nodeTerm t0 F K st2)).sum <
        ((nodeUniverse m).map (nodeTerm t0 F K st)).sum := by
      refine map_sum_strict _ _ _ ?_ tid htidU hdrop
      intro a ha
      by_cases hide : a = tid
      · subst hide
        exact le_of_lt hdrop
      · unfold nodeTerm
        rw [hmeta_ne a hide]
    omega

/-- The coordinate-product coverage hypothesis: every travel-cost product
the search can compute lies in the finite band `F`. -/
def ProdCover (m : CMap α) (topo : List (Neighbor α)) (F : Finset α) : Prop :=
  ∀ x y c, lookupCell m x y = some c → ∀ nb ∈ topo,
    c.travelCost * nb.pathCost ∈ F

lemma closeNode_term (t0 : α) (F : Finset α) (K : Nat) (m : CMap α)
    (st : SState α) (pid kid : NodeId) :
    (∀ id, (((closeNode st pid kid).meta id).pathCost) =
      ((st.meta id).pathCost)) ∧
    countStored (closeNode st pid kid) (nodeUniverse m) =
      countStored st (nodeUniverse m) ∧
    searchMeasure t0 F K m (closeNode st pid kid) =
      searchMeasure t0 F K m st := by
  have hpath := closeNode_meta_pathCost st pid kid
  have hterm : ∀ id, nodeTerm t0 F K (closeNode st pid kid) id =
      nodeTerm t0 F K st id := by
    intro id
    unfold nodeTerm
    rw [hpath id]
  refine ⟨hpath, ?_, ?_⟩
  · unfold countStored
    congr 1
    refine List.filter_congr ?_
    intro id hid
    rw [hpath id]
  · unfold searchMeasure
    rw [closeNode_openl]
    have hmm : (nodeUniverse m).map (nodeTerm t0 F K (closeNode st pid kid)) =
        (nodeUniverse m).map (nodeTerm t0 F K st) :=
      List.map_eq_map_iff.mpr (fun a ha => hterm a)
    rw [hmm]

/-- Popping and closing a node, then expanding all its neighbors, preserves
the invariant and strictly decreases the measure. -/
lemma loopIter_next_term (hfun : Cell α → Coord → α)
    (topo : List (Neighbor α)) (m : CMap α) (endc : Coord) (sr : Cell α)
    (t0 ε cmax : α) (F : Finset α) (K : Nat)
    (hε : 0 < ε) (hcm : 0 ≤ cmax)
    (hFband : ∀ x ∈ F, ε ≤ x ∧ x ≤ cmax)
    (hK : ((nodeUniverse m).length : α) * cmax ≤ (K : α) * ε)
    (hprod : ProdCover m topo F) (hcoh : Coherent m)
    (st st' : SState α)
    (h : loopIter hfun topo m endc sr st = .ok (.next st'))
    (hInv : TermInv m t0 ε cmax F K st) :
    TermInv m t0 ε cmax F K st' ∧
      searchMeasure t0 F K m st' < searchMeasure t0 F K m st := by
  obtain ⟨k, pid, rest, htake, hparse⟩ :=
    loopIter_next_cases hfun topo m endc sr st st' h
  obtain ⟨hmem, hrest⟩ := plTake_eq st.openl _ _ htake
  obtain ⟨tcell, c1, hres, -, hlc, hfold⟩ :=
    parseNeighbors_next_cases hfun topo m endc sr pid _ st' hparse
  obtain ⟨I1, I2, I3, I4, I5⟩ := hInv
  have hpid_stored : ((st.meta pid).pathCost).isSome = true := I4 k pid hmem
  set stPop : SState α := { st with openl := rest } with hstPop
  set kid := NodeId.cell tcell.x tcell.y with hkid
  set stClose := closeNode stPop pid kid with hstClose
  have hkid_pid : pid = NodeId.copy ∨ pid = kid := by
    match pid, hres with
    | .copy, hres => exact Or.inl rfl
    | .cell px py, hres =>
      right
      simp only [cellOf] at hres
      obtain ⟨hx, hy⟩ := hcoh px py tcell hres
      rw [hkid, hx, hy]
  have hInvClose : TermInv m t0 ε cmax F K stClose := by
    obtain ⟨hpath, hcnt, -⟩ := closeNode_term t0 F K m stPop pid kid
    refine ⟨?_, ?_, ?_, ?_, ?_⟩
    · intro id hid
      rw [hpath id] at hid
      exact I1 id hid
    · intro id g hidg
      rw [hpath id] at hidg
      obtain ⟨hgood, hub⟩ := I2 id g hidg
      refine ⟨hgood, ?_⟩
      rw [hcnt]
      exact hub
    · intro x y hxy
      rw [hpath _] at hxy
      by_cases hide : NodeId.cell x y = pid
      · right
        rw [hide]
        rcases hkid_pid with h1 | h1
        · rw [h1] at hide
          cases hide
        · rw [h1]
          exact closeNode_contains_self stPop pid kid
      · rcases I3 x y hxy with h1 | h1
        · left
          rw [hstClose, closeNode_openl]
          rw [plIsPresent_iff] at h1 ⊢
          obtain ⟨k2, hk2⟩ := h1
          refine ⟨k2, ?_⟩
          rw [hstPop] at *
          rw [hrest]
          refine (List.mem_erase_of_ne ?_).mpr hk2
          intro hc
          injection hc with hc1 hc2
          exact hide hc2
        · right
          exact closeNode_contains_mono stPop pid kid _ h1
    · intro k2 id hk2
      rw [hpath id]
      rw [hstClose, closeNode_openl] at hk2
      have hk2b : (k2, id) ∈ rest := hk2
      rw [hrest] at hk2b
      exact I4 k2 id (List.mem_of_mem_erase hk2b)
    · intro id p hidp
      have hprev := closeNode_meta_previous stPop pid kid id
      rw [hprev] at hidp
      obtain ⟨gi, gq, hgi, hgq, hlt⟩ := I5 id p hidp
      exact ⟨gi, gq, by rw [hpath id]; exact hgi, by rw [hpath p]; exact hgq,
        hlt⟩
  have hpid_storedC : ((stClose.meta pid).pathCost).isSome = true := by
    obtain ⟨hpath, -, -⟩ := closeNode_term t0 F K m stPop pid kid
    rw [hpath pid]
    exact hpid_stored
  have hμClose : searchMeasure t0 F K m stClose + 1 =
      searchMeasure t0 F K m st := by
    obtain ⟨-, -, hμ⟩ := closeNode_term t0 F K m stPop pid kid
    rw [hμ]
    unfold searchMeasure
    have hlen : rest.length + 1 = st.openl.length := by
      rw [hrest]
      have := List.length_erase_of_mem hmem
      have hpos : 0 < st.openl.length := List.length_pos_of_mem hmem
      omega
    have hmap : ((nodeUniverse m).map (nodeTerm t0 F K stPop)).sum =
        ((nodeUniverse m).map (nodeTerm t0 F K st)).sum := rfl
    have hlen2 : stPop.openl.length = rest.length := rfl
    omega
  have hfinal := @foldlM_preserve (SState α) (Neighbor α) AErr
    (fun s => TermInv m t0 ε cmax F K s ∧
      ((s.meta pid).pathCost).isSome = true ∧
      searchMeasure t0 F K m s ≤ searchMeasure t0 F K m stClose)
    (parseNeighborsStep hfun topo m endc tcell pid) topo
    (fun s2 nb hnb hP s3 hs3 => by
      rcases parseNeighborsStep_ok_cases hfun topo m endc tcell pid s2 s3 nb
        hs3 with rfl | ⟨tOpt, hck, htgt⟩
      · exact hP
      · obtain ⟨hI, hS, hM⟩ := hP
        have htOpt2 : tOpt = none ∨ ∃ c tx ty,
            tOpt = some (c, NodeId.cell tx ty) ∧
            lookupCell m tx ty = some c ∧ c.travelCost * nb.pathCost ∈ F := by
          rcases htgt with h1 | ⟨c, h1, h2⟩
          · exact Or.inl h1
          · exact Or.inr ⟨c, tcell.x + nb.x, tcell.y + nb.y, h1, h2,
              hprod _ _ c h2 nb hnb⟩
        obtain ⟨hI2, hS2, hM2⟩ := checkTile_term_step hfun m endc t0 ε cmax F
          K hε hcm hFband hK nb.pathCost tOpt pid tcell.x tcell.y s2 s3 hck
          htOpt2 hI hS
        exact ⟨hI2, hS2, le_trans hM2 hM⟩)
    stClose st' ⟨hInvClose, hpid_storedC, le_refl _⟩ hfold
  obtain ⟨hIf, -, hMf⟩ := hfinal
  refine ⟨hIf, ?_⟩
  omega

/-- The strict-decrease core of reconciliation: a candidate that passes the
discard test against a node present in a container with a stored `g` is
strictly cheaper than that stored `g`. -/
lemma discards_strict (st : SState α) (tid : NodeId) (g g' : α)
    (hg : (st.meta tid).pathCost = some g)
    (hpres : plIsPresent st.openl tid = true ∨ st.closed.contains tid = true)
    (hd : discards st tid g' = false) : g' < g := by
  unfold discards at hd
  have hp : (plIsPresent st.openl tid || st.closed.contains tid) = true := by
    rcases hpres with h | h
    · rw [h, Bool.true_or]
    · rw [h, Bool.or_true]
  rw [hp, hg, Bool.true_and] at hd
  have hd2 : decide (g ≤ g') = false := hd
  exact lt_of_not_le (of_decide_eq_false hd2)

/-- More fuel never changes a completed run's result. -/
lemma runLoop_mono (hfun : Cell α → Coord → α) (topo : List (Neighbor α))
    (m : CMap α) (endc : Coord) (sr : Cell α) :
    ∀ (n n' : Nat) (st : SState α) (r : Except AErr (LoopRes α)),
      runLoop hfun topo m endc sr n st = some r → n ≤ n' →
      runLoop hfun topo m endc sr n' st = some r := by
  intro n
  induction n with
  | zero =>
    intro n' st r h
    simp [runLoop] at h
  | succ n ih =>
    intro n' st r h hle
    match n' with
    | 0 => omega
    | n2 + 1 =>
      simp only [runLoop] at h ⊢
      rcases h2 : loopIter hfun topo m endc sr st with e | out
      · rw [h2] at h
        exact h
      · rw [h2] at h
        match out with
        | .exhausted s => exact h
        | .found g s => exact h
        | .next s => exact ih n2 s r h (by omega)

/-- With fuel exceeding the measure of the current state, the loop reaches a
terminal outcome. -/
lemma runLoop_term (hfun : Cell α → Coord → α) (topo : List (Neighbor α))
    (m : CMap α) (endc : Coord) (sr : Cell α) (t0 ε cmax : α) (F : Finset α)
    (K : Nat) (hε : 0 < ε) (hcm : 0 ≤ cmax)
    (hFband : ∀ x ∈ F, ε ≤ x ∧ x ≤ cmax)
    (hK : ((nodeUniverse m).length : α) * cmax ≤ (K : α) * ε)
    (hprod : ProdCover m topo F) (hcoh : Coherent m) :
    ∀ (n : Nat) (st : SState α), TermInv m t0 ε cmax F K st →
      searchMeasure t0 F K m st < n →
      (runLoop hfun topo m endc sr n st).isSome = true := by
  intro n
  induction n with
  | zero =>
    intro st hI hμ
    omega
  | succ n ih =>
    intro st hI hμ
    simp only [runLoop]
    rcases h2 : loopIter hfun topo m endc sr st with e | out
    · rfl
    · match out with
      | .exhausted s => rfl
      | .found g s => rfl
      | .next s =>
        obtain ⟨hI2, hμ2⟩ := loopIter_next_term hfun topo m endc sr t0 ε cmax
          F K hε hcm hFband hK hprod hcoh st s h2 hI
        exact ih s hI2 (by omega)

/-- The seeded state satisfies the termination invariant, with `t0` the
start cell's travel cost. -/
lemma astarInit_term (hfun : Cell α → Coord → α) (m : CMap α) (s e : Coord)
    (sr : Cell α) (st0 : SState α) (ε cmax : α) (F : Finset α) (K : Nat)
    (hcm : 0 ≤ cmax)
    (h : astarInit hfun m s e = .ok (sr, st0)) :
    ∃ sn en, lookupCell m s.1 s.2 = some sn ∧ lookupCell m e.1 e.2 = some en ∧
      TermInv m sn.travelCost ε cmax F K st0 := by
  obtain ⟨sn, en, hsn, hen, hsr, hst⟩ := astarInit_ok_cases hfun m s e sr st0 h
  refine ⟨sn, en, hsn, hen, ?_⟩
  have hpathCopy : (st0.meta NodeId.copy).pathCost = some sn.travelCost := by
    rw [hst]
    dsimp only
    rw [if_pos rfl]
  have hpathNe : ∀ id : NodeId, id ≠ NodeId.copy →
      (st0.meta id).pathCost = none := by
    intro id hid
    rw [hst]
    dsimp only
    rw [if_neg hid]
  have hprevAll : ∀ id : NodeId, (st0.meta id).previous = none := by
    intro id
    rw [hst]
    dsimp only
    split
    · rfl
    · rfl
  have hopen : st0.openl =
      [(hfun sn (en.x, en.y) + sn.travelCost, NodeId.copy)] := by
    rw [hst]
  have hcnt_pos : 1 ≤ countStored st0 (nodeUniverse m) := by
    unfold countStored nodeUniverse
    simp only [List.filter_cons, hpathCopy]
    dsimp only [Option.isSome_some]
    simp only [if_true, List.length_cons]
    omega
  refine ⟨?_, ?_, ?_, ?_, ?_⟩
  · intro id hid
    by_cases hide : id = NodeId.copy
    · rw [hide]
      exact List.mem_cons_self _ _
    · rw [hpathNe id hide] at hid
      cases hid
  · intro id g hidg
    by_cases hide : id = NodeId.copy
    · subst hide
      rw [hpathCopy] at hidg
      injection hidg with hidg
      subst hidg
      refine ⟨⟨0, Nat.zero_le K, ?_, ?_⟩, ?_⟩
      · simp [sumsAt]
      · simp
      · have h5 : (0 : α) ≤ (countStored st0 (nodeUniverse m) : α) * cmax :=
          mul_nonneg (Nat.cast_nonneg _) hcm
        linarith
    · rw [hpathNe id hide] at hidg
      cases hidg
  · intro x y hxy
    rw [hpathNe (NodeId.cell x y) (fun hc => NodeId.noConfusion hc)] at hxy
    cases hxy
  · intro k id hkid
    rw [hopen] at hkid
    have h4 := List.mem_singleton.mp hkid
    have h5 : id = NodeId.copy := congrArg Prod.snd h4
    rw [h5, hpathCopy]
    rfl
  · intro id p hidp
    rw [hprevAll id] at hidp
    cases hidp

/-- Transport of the meta-determined invariant facts to a found state: edge
strictness, value-set membership of every stored `g`, and a stored `g` for
the found node. -/
lemma runLoop_found_term (hfun : Cell α → Coord → α)
    (topo : List (Neighbor α)) (m : CMap α) (endc : Coord) (sr : Cell α)
    (t0 ε cmax : α) (F : Finset α) (K : Nat) (hε : 0 < ε) (hcm : 0 ≤ cmax)
    (hFband : ∀ x ∈ F, ε ≤ x ∧ x ≤ cmax)
    (hK : ((nodeUniverse m).length : α) * cmax ≤ (K : α) * ε)
    (hprod : ProdCover m topo F) (hcoh : Coherent m) :
    ∀ (fuel : Nat) (st0 : SState α) (gid : NodeId) (stF : SState α),
      runLoop hfun topo m endc sr fuel st0 = some (.ok (.found gid stF)) →
      TermInv m t0 ε cmax F K st0 →
      (∀ id p, (stF.meta id).previous = some p → ∃ gi gp,
        (stF.meta id).pathCost = some gi ∧ (stF.meta p).pathCost = some gp ∧
        gp < gi) ∧
      (∀ id g, (stF.meta id).pathCost = some g → g ∈ valueSet t0 F K) ∧
      ((stF.meta gid).pathCost).isSome = true := by
  intro fuel
  induction fuel with
  | zero =>
    intro st0 gid stF h hInv
    simp [runLoop] at h
  | succ n ih =>
    intro st0 gid stF h hInv
    simp only [runLoop] at h
    rcases h2 : loopIter hfun topo m endc sr st0 with e | out
    · rw [h2] at h
      cases h
    · rw [h2] at h
      match out with
      | .exhausted s2 => simp at h
      | .next s2 =>
        obtain ⟨hI2, -⟩ := loopIter_next_term hfun topo m endc sr t0 ε cmax
          F K hε hcm hFband hK hprod hcoh st0 s2 h2 hInv
        exact ih s2 gid stF (by simpa using h) hI2
      | .found g2 s2 =>
        simp only [Option.some.injEq, Except.ok.injEq, LoopRes.found.injEq] at h
        obtain ⟨hg, hs⟩ := h
        obtain ⟨k, pid, rest, htake, hparse⟩ :=
          loopIter_found_cases hfun topo m endc sr st0 s2 g2 h2
        obtain ⟨hmem, hrest⟩ := plTake_eq st0.openl _ _ htake
        obtain ⟨hsf, hgp, tcell, hres, hex, hey⟩ :=
          parseNeighbors_found_cases hfun topo m endc sr pid _ g2 _ hparse
        obtain ⟨I1, I2, I3, I4, I5⟩ := hInv
        have hmeta : s2.meta = st0.meta := by
          rw [hsf]
        rw [← hg, ← hs]
        refine ⟨?_, ?_, ?_⟩
        · intro id p hidp
          rw [hmeta] at hidp ⊢
          exact I5 id p hidp
        · intro id g hidg
          rw [hmeta] at hidg
          obtain ⟨⟨d, hdK, hdS, -⟩, -⟩ := I2 id g hidg
          exact valueSet_of_sumsAt t0 F K d g hdK hdS
        · rw [hmeta, hgp]
          exact I4 k pid hmem

/-- With fuel exceeding the rank of the starting node's stored `g`, the
back-pointer walk reaches an outcome: the strict decrease of `g` along
`previous` edges rules out cycles. -/
lemma backwalkGo_term (m : CMap α) (sr : Cell α) (st : SState α) (t0 : α)
    (F : Finset α) (K : Nat)
    (hedge : ∀ id p, (st.meta id).previous = some p → ∃ gi gp,
      (st.meta id).pathCost = some gi ∧ (st.meta p).pathCost = some gp ∧
      gp < gi)
    (hval : ∀ id g, (st.meta id).pathCost = some g → g ∈ valueSet t0 F K) :
    ∀ (n : Nat) (id : NodeId) (g : α), (st.meta id).pathCost = some g →
      rank t0 F K g < n → (backwalkGo m sr st n (some id)).isSome = true := by
  intro n
  induction n with
  | zero =>
    intro id g hg hr
    omega
  | succ n ih =>
    intro id g hg hr
    simp only [backwalkGo]
    rcases h2 : cellOf m sr id with - | c
    · rfl
    · rcases h3 : (st.meta id).previous with - | p
      · rw [backwalkGo_none]
        rfl
      · obtain ⟨gi, gp, hgi, hgp, hlt⟩ := hedge id p h3
        rw [hg] at hgi
        injection hgi with hgi
        have hlt2 : gp < g := by
          rw [hgi]
          exact hlt
        have hrank : rank t0 F K gp < rank t0 F K g :=
          rank_lt_rank t0 F K gp g (hval p gp hgp) hlt2
        have hih := ih p gp hgp (by omega)
        rcases h4 : backwalkGo m sr st n (some p) with - | w
        · rw [h4] at hih
          cases hih
        · match w with
          | .error er => rfl
          | .ok l => rfl

/-- Decidable check that every travel-cost product falls in `F`. -/
def prodCoverB (m : CMap α) (topo : List (Neighbor α)) (F : Finset α) : Bool :=
  m.all fun row => row.all fun c => topo.all fun nb =>
    decide (c.travelCost * nb.pathCost ∈ F)

lemma prodCover_of_b (m : CMap α) (topo : List (Neighbor α)) (F : Finset α)
    (h : prodCoverB m topo F = true) : ProdCover m topo F := by
  intro x y c hc nb hnb
  unfold lookupCell lookupRow at hc
  by_cases hx : 0 ≤ x
  · rw [if_pos hx] at hc
    rcases h2 : m.get? x.toNat with - | row
    · rw [h2] at hc
      cases hc
    · rw [h2] at hc
      dsimp only at hc
      by_cases hy : 0 ≤ y
      · rw [if_pos hy] at hc
        have hrow : row ∈ m := List.get?_mem h2
        have hcell : c ∈ row := List.get?_mem hc
        have h3 := List.all_eq_true.mp h row hrow
        have h4 := List.all_eq_true.mp h3 c hcell
        have h5 := List.all_eq_true.mp h4 nb hnb
        exact of_decide_eq_true h5
      · rw [if_neg hy] at hc
        cases hc
  · rw [if_neg hx] at hc
    cases hc

/-! ## Claim C4 — termination and the reopening bound -/

/-- C4 counterexample to the reopening bound: on an 11-cell map with a
10-descriptor topology — at most `11 * 10 = 110` directed edges exist at
all, reachable or not — a complete run performs 153 reopenings (closed-set
deletions during reconciliation).  Each reopening does strictly decrease the
node's stored g, but with an adversarial (inconsistent) heuristic the same
cells are reopened over and over, so the number of reopenings is not
bounded by the number of reachable edges. -/
theorem reopenings_exceed_edges_cex :
    ((astarWithState hMar topoMar mapMar (0, 0) (10, 0) 400).map
      (Except.map (fun p => p.2.reopenCount))) = some (.ok 153) ∧
      (mapMar.map List.length).sum = 11 ∧ topoMar.length = 10 ∧
      11 * 10 < 153 :=
  ⟨rfl, by decide, by decide, by decide⟩

/-- C4 (amended): each reconciliation that removes a node from the open
frontier or the closed set does strictly decrease that node's stored `g`
(first conjunct, with no assumption on costs), but the number of reopenings
is not bounded by the number of reachable edges (see the counterexample);
the pop-and-expand loop still halts on every invocation when the map's
travel-cost products all lie in a finite band of positive values `F` with
`ε ≤ x ≤ cmax` and `K` satisfies the Archimedean bound
`|universe| * cmax ≤ K * ε`: every stored `g` is then a sum of at most `K`
products, a finite value set, and each insertion strictly lowers the
target's rank in it while each pop shrinks the frontier, so enough fuel
always completes the run (second conjunct, covering the back-pointer walk
as well since `g` strictly decreases along `previous` edges). -/
theorem reconciliation_decrease_and_termination (hfun : Cell α → Coord → α)
    (topo : List (Neighbor α)) (m : CMap α) (ε cmax : α) (F : Finset α)
    (K : Nat) (hcoh : Coherent m) (hε : 0 < ε) (hcm : 0 ≤ cmax)
    (hFband : ∀ x ∈ F, ε ≤ x ∧ x ≤ cmax) (hprod : ProdCover m topo F)
    (hK : ((nodeUniverse m).length : α) * cmax ≤ (K : α) * ε) :
    (∀ (st : SState α) (tid : NodeId) (g g' : α),
      (st.meta tid).pathCost = some g →
      (plIsPresent st.openl tid = true ∨ st.closed.contains tid = true) →
      discards st tid g' = false → g' < g) ∧
    (∀ s e : Coord, ∃ fuel, (astar hfun topo m s e fuel).isSome = true) := by
  refine ⟨fun st tid g g' hg hpres hd =>
    discards_strict st tid g g' hg hpres hd, ?_⟩
  intro s e
  rcases h2 : astarInit hfun m s e with er | ⟨sr, st0⟩
  · refine ⟨1, ?_⟩
    unfold astar astarWithState
    rw [h2]
    rfl
  · obtain ⟨sn, en, hsn, hen, hInv0⟩ :=
      astarInit_term hfun m s e sr st0 ε cmax F K hcm h2
    set t0 := sn.travelCost with ht0
    set fuel := searchMeasure t0 F K m st0 + (valueSet t0 F K).card + 2
      with hfuel
    refine ⟨fuel, ?_⟩
    have hrl : (runLoop hfun topo m e sr fuel st0).isSome = true :=
      runLoop_term hfun topo m e sr t0 ε cmax F K hε hcm hFband hK hprod
        hcoh fuel st0 hInv0 (by omega)
    obtain ⟨r, hr⟩ := Option.isSome_iff_exists.mp hrl
    unfold astar astarWithState
    rw [h2]
    dsimp only
    rw [hr]
    match r with
    | .error er => rfl
    | .ok (.exhausted stF) => rfl
    | .ok (.found gid stF) =>
      obtain ⟨hedge, hval, hstored⟩ := runLoop_found_term hfun topo m e sr
        t0 ε cmax F K hε hcm hFband hK hprod hcoh fuel st0 gid stF hr hInv0
      obtain ⟨g, hg⟩ := Option.isSome_iff_exists.mp hstored
      have hbw : (backwalkGo m sr stF fuel (some gid)).isSome = true := by
        refine backwalkGo_term m sr stF t0 F K hedge hval fuel gid g hg ?_
        have := rank_le_card t0 F K g
        omega
      obtain ⟨w, hw⟩ := Option.isSome_iff_exists.mp hbw
      dsimp only
      rw [hw]
      match w with
      | .error er => rfl
      | .ok coords => rfl

theorem reconciliation_decrease_and_termination_witness :
    (∀ (st : SState ℤ) (tid : NodeId) (g g' : ℤ),
      (st.meta tid).pathCost = some g →
      (plIsPresent st.openl tid = true ∨ st.closed.contains tid = true) →
      discards st tid g' = false → g' < g) ∧
    (∀ s e : Coord, ∃ fuel, (astar h0q topo4 map31 s e fuel).isSome = true) :=
  reconciliation_decrease_and_termination h0q topo4 map31 1 1 {1} 4
    (coherent_of_coherentB map31 (by decide)) (by decide) (by decide)
    (by decide) (prodCover_of_b map31 topo4 {1} (by decide)) (by decide)

end LuaAstar
